import Mathlib

/-!
# streaks: the streak engine of `streaks.c`

A shallow embedding of the streak computation of `streaks.c`
(`get_date_with_offset`, `is_day_in_days_file`, `handle_days_file`,
`build_streak_string`, `calculate_streak`, `create_streak_files`, the weekday
header of `main`) and the properties proved about it.

Conventions of the embedding

* A C string is a `List Char` (the bytes before the terminating NUL).
* A C `int` is an `Int`; every `int` operation that can leave the 32-bit range
  is wrapped with `wrap32` (two's complement).  `time_t` is 64 bits wide and is
  not wrapped.
* One invocation reads the clock once: every `time(NULL)` of a call returns
  `Env.now`.  `localtime` is the C library's: the instant is shifted by the UTC
  offset in force at that instant (`Env.utcoff`, which may change over time as
  with daylight saving) and broken down in the proleptic Gregorian calendar.
* A habit folder is the set of names of its marker files plus the bytes of its
  `days.txt`, when present.  Paths are assumed to fit their 512-byte buffers.
* The unbounded `for (;;)` walk carries a fuel: `none` means that the walk
  has not stopped within that many iterations.
-/

namespace Streaks

/-! ## Machine integers -/

/-- Value of an `int` expression whose mathematical value is `x`: wrapped to
32 bits, two's complement. -/
def wrap32 (x : Int) : Int := (x + 2147483648) % 4294967296 - 2147483648

/-! ## The clock and `localtime` -/

/-- Clock reading (`time(NULL)`, seconds since the epoch) and time-zone rule
(seconds east of UTC in force at an instant) of one invocation. -/
structure Env where
  now : Int
  utcoff : Int → Int

/-- The fields of `struct tm` that the program reads. -/
structure Tm where
  tm_year : Int
  tm_mon : Int
  tm_mday : Int
  tm_wday : Int
deriving DecidableEq, Repr

/-- Year, month (1..12) and day of month of the day that is `z` days after
1970-01-01, proleptic Gregorian calendar. -/
def civil_from_days (z : Int) : Int × Int × Int :=
  let z1 := z + 719468
  let era := z1 / 146097
  let doe := z1 % 146097
  let yoe := (doe - doe / 1460 + doe / 36524 - doe / 146096) / 365
  let doy := doe - (365 * yoe + yoe / 4 - yoe / 100)
  let mp := (5 * doy + 2) / 153
  let d := doy - (153 * mp + 2) / 5 + 1
  let m := if mp < 10 then mp + 3 else mp - 9
  let y := yoe + era * 400
  (if m ≤ 2 then y + 1 else y, m, d)

/-- Days from 1970-01-01 to the day `d` of month `m` of year `y`, proleptic
Gregorian calendar: the calendar day of a civil date, stated on its own. -/
def days_from_civil (y m d : Int) : Int :=
  let y1 := if m ≤ 2 then y - 1 else y
  let era := y1 / 400
  let yoe := y1 % 400
  let mp := if 2 < m then m - 3 else m + 9
  let doy := (153 * mp + 2) / 5 + d - 1
  let doe := yoe * 365 + yoe / 4 - yoe / 100 + doy
  era * 146097 + doe - 719468

/-- Number of the local calendar day (days since 1970-01-01) that contains the
instant `t`. -/
def local_day (env : Env) (t : Int) : Int := (t + env.utcoff t) / 86400

/-- The C library's `localtime`: broken-down local time of the instant `t`. -/
def localtime (env : Env) (t : Int) : Tm :=
  let z := local_day env t
  let ymd := civil_from_days z
  { tm_year := ymd.1 - 1900, tm_mon := ymd.2.1 - 1, tm_mday := ymd.2.2,
    tm_wday := (z + 4) % 7 }

/-! ## `snprintf(date_buffer, buffer_size, "%04d-%02d-%02d", ...)` -/

/-- The decimal digit character of `n % 10`. -/
def digit_char (n : Nat) : Char := Char.ofNat (48 + n % 10)

/-- Decimal digits of `n`, most significant first, in front of `acc`. -/
def dec_digits : Nat → Nat → List Char → List Char
  | 0, _, acc => acc
  | fuel + 1, n, acc =>
    if n < 10 then digit_char n :: acc
    else dec_digits fuel (n / 10) (digit_char n :: acc)

/-- The conversion `%0<width>d` of printf. -/
def printf_0d (width : Nat) (v : Int) : List Char :=
  let ds := dec_digits (v.natAbs + 1) v.natAbs []
  if v < 0 then '-' :: (List.replicate (width - 1 - ds.length) '0' ++ ds)
  else List.replicate (width - ds.length) '0' ++ ds

/-- The string left in a buffer of `buffer_size` bytes by
`snprintf(buf, buffer_size, "%04d-%02d-%02d", y, m, d)`. -/
def snprintf_date (buffer_size : Nat) (y m d : Int) : List Char :=
  (printf_0d 4 y ++ '-' :: (printf_0d 2 m ++ '-' :: printf_0d 2 d)).take (buffer_size - 1)

/-- The instant `time(NULL) + offset * 86400`; the product is an `int`. -/
def offset_instant (env : Env) (offset : Int) : Int :=
  env.now + wrap32 (offset * 86400)

/-- The date string written by `get_date_with_offset(date_buffer, buffer_size, offset)`. -/
def get_date_with_offset (env : Env) (buffer_size : Nat) (offset : Int) : List Char :=
  let tm := localtime env (offset_instant env offset)
  snprintf_date buffer_size (tm.tm_year + 1900) (tm.tm_mon + 1) tm.tm_mday

/-- The array `days` of `build_streak_string` and `calculate_streak`. -/
def days : List (List Char) :=
  [['s', 'u'], ['m'], ['t', 'u'], ['w'], ['t', 'h'], ['f'], ['s', 'a']]

/-- The expression `days[tm.tm_wday]` for the instant of `offset`. -/
def day_of_week (env : Env) (offset : Int) : List Char :=
  days.getD (localtime env (offset_instant env offset)).tm_wday.toNat []

/-! ## The habit folder -/

/-- A habit folder: the names of its entries other than `days.txt` (the
marker files) and the bytes of `days.txt` when that file exists. -/
structure Folder where
  files : List (List Char)
  days_txt : Option (List Char)

/-- The test `access(file_path, F_OK) == 0` for the entry `name` of the folder. -/
def access (folder : Folder) (name : List Char) : Bool := decide (name ∈ folder.files)

/-! ## `is_day_in_days_file` -/

/-- The characters that `fgets` stores when at most `n` more fit, and the rest
of the stream: reading stops after a newline. -/
def fgets_read : Nat → List Char → List Char × List Char
  | 0, s => ([], s)
  | _ + 1, [] => ([], [])
  | n + 1, c :: s =>
    if c = '\n' then ([c], s)
    else (c :: (fgets_read n s).1, (fgets_read n s).2)

/-- The call `fgets(line, size, file)`: `none` at end of file, else the bytes
stored in `line` (at most `size - 1`) and the rest of the stream. -/
def fgets (size : Nat) (stream : List Char) : Option (List Char × List Char) :=
  if stream = [] then none else some (fgets_read (size - 1) stream)

/-- The C string held by a buffer: its bytes before the first NUL. -/
def cstr (buf : List Char) : List Char := buf.takeWhile (fun c => c != '\x00')

/-- The call `strcspn(s, "\n")`: length of the prefix of `s` free of newlines. -/
def strcspn_newline (s : List Char) : Nat := (s.takeWhile (fun c => c != '\n')).length

/-- The function `tolower` of the C locale. -/
def tolower (c : Char) : Char :=
  if 65 ≤ c.toNat ∧ c.toNat ≤ 90 then Char.ofNat (c.toNat + 32) else c

/-- The function `strcasecmp`; the end of a list stands for the NUL. -/
def strcasecmp : List Char → List Char → Int
  | [], [] => 0
  | [], b :: _ => 0 - ((tolower b).toNat : Int)
  | a :: _, [] => ((tolower a).toNat : Int)
  | a :: s1, b :: s2 =>
    if tolower a = tolower b then (if a = '\x00' then 0 else strcasecmp s1 s2)
    else ((tolower a).toNat : Int) - ((tolower b).toNat : Int)

/-- The loop `while (fgets(line, sizeof(line), file) != NULL)` of
`is_day_in_days_file`, on the unread part of the file. Each iteration
consumes at least one byte, so a fuel above the length of the stream is
never used up. -/
def days_file_loop (day : List Char) : Nat → List Char → Bool
  | 0, _ => false
  | fuel + 1, stream =>
    match fgets 16 stream with
    | none => false
    | some (buf, rest) =>
      let line := (cstr buf).take (strcspn_newline (cstr buf))
      if strcasecmp line day = 0 then true else days_file_loop day fuel rest

/-- The function `is_day_in_days_file(folder_path, day)`. -/
def is_day_in_days_file (folder : Folder) (day : List Char) : Bool :=
  match folder.days_txt with
  | none => false
  | some content => days_file_loop day (content.length + 1) content

/-! ## `calculate_streak` -/

/-- The loop `for (int offset = -1;; offset--)` of `calculate_streak`, from
the iteration at `offset` with the count `streak`; `fuel` bounds the number
of iterations. -/
def streak_walk (env : Env) (folder : Folder) : Nat → Int → Int → Option Int
  | 0, _, _ => none
  | fuel + 1, offset, streak =>
    if is_day_in_days_file folder (day_of_week env offset) then
      streak_walk env folder fuel (wrap32 (offset - 1)) streak
    else if access folder (get_date_with_offset env 11 offset) then
      streak_walk env folder fuel (wrap32 (offset - 1)) (wrap32 (streak + 1))
    else some streak

/-- The function `calculate_streak(folder_path)`, the walk limited to `fuel`
iterations. -/
def calculate_streak (env : Env) (folder : Folder) (fuel : Nat) : Option Int :=
  match streak_walk env folder fuel (-1) 0 with
  | none => none
  | some streak =>
    if access folder (get_date_with_offset env 11 0) then some (wrap32 (streak + 1))
    else some streak

/-! ## `build_streak_string` -/

/-- The character stored at index `i + 6` by the body of the loop of
`build_streak_string`. -/
def strip_glyph (env : Env) (folder : Folder) (i : Int) : Char :=
  if is_day_in_days_file folder (day_of_week env i) then '/'
  else if access folder (get_date_with_offset env 11 i) then 'X'
  else ' '

/-- The function `build_streak_string(folder_path, streak_string)`: the
contents of the caller's buffer afterwards. -/
def build_streak_string (env : Env) (folder : Folder) (streak_string : List Char) :
    List Char :=
  let s := [(-6 : Int), -5, -4, -3, -2, -1, 0].foldl
    (fun buf i => buf.set (i + 6).toNat (strip_glyph env folder i)) streak_string
  s.set 7 '\x00'

/-! ## `create_streak_files` -/

/-- The calls `fopen(file_path, "w")` and `fclose` on a marker file: the
entry exists afterwards. -/
def fopen_w (folder : Folder) (name : List Char) : Folder :=
  if name ∈ folder.files then folder else { folder with files := name :: folder.files }

/-- The function `create_streak_files(folder_path, days)`. -/
def create_streak_files (env : Env) (folder : Folder) (days : Int) : Folder :=
  (List.range days.toNat).foldl
    (fun f (i : Nat) => fopen_w f (get_date_with_offset env 11 (-(i : Int)))) folder

/-! ## `handle_days_file` -/

/-- One call of `strtok` with the delimiter `delim` on the part `s` of the
string not scanned yet: `none` when no token is left, else the token and
the part that follows the delimiter ending it. -/
def strtok (s : List Char) (delim : Char) : Option (List Char × List Char) :=
  let s1 := s.dropWhile (fun c => c == delim)
  if s1 = [] then none
  else some (s1.takeWhile (fun c => c != delim), (s1.dropWhile (fun c => c != delim)).drop 1)

/-- The loop `while (token) { fprintf(file, "%s\n", token); token = strtok(NULL, ","); }`
of `handle_days_file`: the bytes written, `s` being the part of the string
not scanned yet. Each call of `strtok` consumes at least one byte, so a fuel
above the length of `s` is never used up. -/
def write_tokens : Nat → List Char → List Char
  | 0, _ => []
  | fuel + 1, s =>
    match strtok s ',' with
    | none => []
    | some (token, rest) => token ++ '\n' :: write_tokens fuel rest

/-- The function `handle_days_file(folder_path, weekday_values)`; `none` is
the NULL pointer. File operations are taken to succeed. -/
def handle_days_file (folder : Folder) (weekday_values : Option (List Char)) : Folder :=
  match weekday_values with
  | none => { folder with days_txt := none }
  | some values =>
    if values.length = 0 then { folder with days_txt := none }
    else { folder with days_txt := some (write_tokens (values.length + 1) values) }

/-! ## The weekday header of `main` -/

/-- The string `"SMTWTFS"` that `main` names `days`. -/
def header_days : List Char := ['S', 'M', 'T', 'W', 'T', 'F', 'S']

/-- The byte `days[i]` of the string `"SMTWTFS"`; the byte at index 7 is its NUL. -/
def header_day (i : Int) : Char := header_days.getD i.toNat '\x00'

/-- The buffer `streak` of `main` after the loop
`for (int i = 0; i < 7; i++) streak[i] = days[(today + i + 1) % 7];`
(`%` rounds toward zero in C). -/
def header_loop (today : Int) (streak : List Char) : List Char :=
  [(0 : Int), 1, 2, 3, 4, 5, 6].foldl
    (fun buf i => buf.set i.toNat (header_day (Int.tmod (today + i + 1) 7))) streak

/-- The buffer `streak` that `main` prints as weekday header: the loop, then
`streak[6] = days[today]` and `streak[7] = 0`. -/
def weekday_header (today : Int) (streak : List Char) : List Char :=
  ((header_loop today streak).set 6 (header_day today)).set 7 '\x00'

/-- The header of the default listing: `today` is the `tm_wday` of
`localtime` at the current instant. -/
def main_header (env : Env) (streak : List Char) : List Char :=
  weekday_header (localtime env env.now).tm_wday streak

/-! ## Vocabulary of the statements -/

/-- The day that the program resolves at `offset` has its weekday listed in
`days.txt`. -/
def day_excluded (env : Env) (folder : Folder) (offset : Int) : Bool :=
  is_day_in_days_file folder (day_of_week env offset)

/-- A marker file exists for the date that the program resolves at `offset`. -/
def day_marked (env : Env) (folder : Folder) (offset : Int) : Bool :=
  access folder (get_date_with_offset env 11 offset)

/-- Number of the offsets `-m, -(m+1), .., -(m+j-1)` whose day is not excluded. -/
def nonexcluded_from (env : Env) (folder : Folder) (m j : Nat) : Nat :=
  (List.range j).countP (fun i => !day_excluded env folder (-((m + i : Nat) : Int)))

/-- Number of non-excluded days among the offsets `-1 .. -n`. -/
def nonexcluded_count (env : Env) (folder : Folder) (n : Nat) : Nat :=
  nonexcluded_from env folder 1 n

/-- The lines of a text file: the runs of bytes between newlines; a newline
at the very end does not open another line. -/
def file_lines : List Char → List (List Char)
  | [] => []
  | c :: s =>
    if c = '\n' then [] :: file_lines s
    else
      match file_lines s with
      | [] => [[c]]
      | l :: ls => (c :: l) :: ls

/-- The lines of the `days.txt` of a folder; none when the file is absent. -/
def days_txt_lines (folder : Folder) : List (List Char) :=
  match folder.days_txt with
  | none => []
  | some content => file_lines content

/-- The text whose lines are `ls`, each ended by a newline. -/
def lines_text : List (List Char) → List Char
  | [] => []
  | l :: ls => l ++ '\n' :: lines_text ls

/-- The non-empty tokens of a comma-separated string. -/
def comma_tokens (s : List Char) : List (List Char) :=
  (s.splitOn ',').filter (fun t => !t.isEmpty)

/-- Equality of two strings ignoring letter case. -/
def eq_ignoring_case (a b : List Char) : Prop := a.map tolower = b.map tolower

instance (a b : List Char) : Decidable (eq_ignoring_case a b) :=
  inferInstanceAs (Decidable (a.map tolower = b.map tolower))

/-- Every instant that the program can resolve (those less than `2^31`
seconds away from the clock reading) falls, in local time, between
0000-01-01 and 9999-12-31, so that its year prints with four digits. -/
def four_digit_years (env : Env) : Prop :=
  ∀ t : Int, env.now - 2147483648 ≤ t → t < env.now + 2147483648 →
    -62167219200 ≤ t + env.utcoff t ∧ t + env.utcoff t ≤ 253402300799

/-! ## Concrete inputs -/

/-- Clock at 2026-10-30 12:00:00 UTC (a Friday), time zone UTC. -/
def noon_utc : Env := { now := 1793361600, utcoff := fun _ => 0 }

/-- A habit without `days.txt`, marked on 2026-10-30 and the two days before. -/
def three_markers : Folder :=
  { files := ["2026-10-30".toList, "2026-10-29".toList, "2026-10-28".toList],
    days_txt := none }

/-- A fresh habit: no marker, no `days.txt`. -/
def fresh_habit : Folder := { files := [], days_txt := none }

/-- A habit that excludes Wednesdays, marked on Wednesday 2026-10-28 and on
Thursday 2026-10-29. -/
def wednesday_off_marked : Folder :=
  { files := ["2026-10-28".toList, "2026-10-29".toList], days_txt := some "w\n".toList }

/-- The same habit without the marker of Wednesday 2026-10-28. -/
def wednesday_off_unmarked : Folder :=
  { files := ["2026-10-29".toList], days_txt := some "w\n".toList }

/-- New York on the evening of Sunday 2026-11-01, the day on which clocks go
back: the clock reads 23:30 EST (04:30 UTC on 2 November); the UTC offset is
-4 h before 06:00 UTC on 1 November and -5 h from then on. -/
def new_york_fall_back : Env :=
  { now := 1793593800, utcoff := fun t => if t < 1793512800 then -14400 else -18000 }

/-- A habit without `days.txt` whose only marker is that of 2026-11-01. -/
def marked_nov_first : Folder := { files := ["2026-11-01".toList], days_txt := none }

/-- A habit marked on 2026-10-29 and 2026-10-28, without `days.txt`. -/
def two_markers : Folder :=
  { files := ["2026-10-29".toList, "2026-10-28".toList], days_txt := none }

/-- A habit whose `days.txt` holds one line of 17 bytes, fifteen `x` and `su`. -/
def long_line_habit : Folder :=
  { files := [], days_txt := some "xxxxxxxxxxxxxxxsu\n".toList }

/-- A habit whose `days.txt` lists `Sa` and `su`, the last line without newline. -/
def weekend_off : Folder := { files := [], days_txt := some "Sa\nsu".toList }

/-- New York in the small hours of the same Sunday 2026-11-01: the clock reads
00:30 EDT (04:30 UTC on 1 November); same time-zone rule. -/
def new_york_morning : Env :=
  { now := 1793507400, utcoff := fun t => if t < 1793512800 then -14400 else -18000 }

/-- A habit without `days.txt` whose only marker is that of 2026-10-31. -/
def marked_oct_last : Folder := { files := ["2026-10-31".toList], days_txt := none }

/-- Clock at 2026-10-30 23:00:00 UTC, time zone UTC. -/
def late_utc : Env := { now := 1793401200, utcoff := fun _ => 0 }

/-- The argument `f,,Sa,su` of the command `days`. -/
def weekend_values : List Char := "f,,Sa,su".toList

/-- The 8-byte buffer `streak` of `main`, before it is written. -/
def eight_bytes : List Char := List.replicate 8 'q'

/-- A habit without `days.txt`, marked on 2026-11-01 and the two days before. -/
def three_days_nov : Folder :=
  { files := ["2026-11-01".toList, "2026-10-31".toList, "2026-10-30".toList],
    days_txt := none }

/-- A habit that excludes Saturdays, marked on Sunday 2026-11-01. -/
def saturday_off_marked : Folder :=
  { files := ["2026-11-01".toList], days_txt := some "sa\n".toList }

/-- New York at 00:30 EDT on Monday 2026-03-09 (04:30 UTC), the day after
clocks went forward: the UTC offset is -5 h before 07:00 UTC on 8 March and
-4 h from then on, so that Sunday 2026-03-08 has 23 hours. -/
def new_york_spring_forward : Env :=
  { now := 1773030600, utcoff := fun t => if t < 1772953200 then -18000 else -14400 }

/-- A habit without `days.txt` whose only marker is that of 2026-03-08. -/
def marked_mar_eighth : Folder := { files := ["2026-03-08".toList], days_txt := none }

/-! ## Machine arithmetic -/

theorem wrap32_of_range (x : Int) (h1 : -2147483648 ≤ x) (h2 : x < 2147483648) :
    wrap32 x = x := by
  unfold wrap32; omega

theorem wrap32_mul_wrap32 (a : Int) : wrap32 (wrap32 a * 86400) = wrap32 (a * 86400) := by
  unfold wrap32; omega

theorem wrap32_pred_wrap32 (a : Int) : wrap32 (wrap32 a - 1) = wrap32 (a - 1) := by
  unfold wrap32; omega

theorem wrap32_succ_wrap32 (a : Int) : wrap32 (wrap32 a + 1) = wrap32 (a + 1) := by
  unfold wrap32; omega

theorem offset_instant_wrap32 (env : Env) (o : Int) :
    offset_instant env (wrap32 o) = offset_instant env o := by
  unfold offset_instant; rw [wrap32_mul_wrap32]

/-- The instants repeat every `2^25` offsets: `2^25 * 86400` is a multiple of `2^32`. -/
theorem offset_instant_period (env : Env) (o : Int) :
    offset_instant env (o + 33554432) = offset_instant env o := by
  unfold offset_instant wrap32; omega

theorem day_excluded_congr (env : Env) (folder : Folder) {a b : Int}
    (h : offset_instant env a = offset_instant env b) :
    day_excluded env folder a = day_excluded env folder b := by
  unfold day_excluded day_of_week; rw [h]

theorem day_marked_congr (env : Env) (folder : Folder) {a b : Int}
    (h : offset_instant env a = offset_instant env b) :
    day_marked env folder a = day_marked env folder b := by
  unfold day_marked get_date_with_offset; rw [h]

theorem nonexcluded_from_succ (env : Env) (folder : Folder) (m j : Nat) :
    nonexcluded_from env folder m (j + 1) =
      (if day_excluded env folder (-(m : Int)) then 0 else 1)
        + nonexcluded_from env folder (m + 1) j := by
  unfold nonexcluded_from
  rw [List.range_succ_eq_map, List.countP_cons, List.countP_map]
  have hfun : ((fun i => !day_excluded env folder (-((m + i : Nat) : Int))) ∘ Nat.succ)
      = (fun i => !day_excluded env folder (-((m + 1 + i : Nat) : Int))) := by
    funext i
    simp only [Function.comp, Nat.succ_eq_add_one]
    rw [show m + (i + 1) = m + 1 + i by omega]
  rw [hfun]
  cases h : day_excluded env folder (-(m : Int)) <;> simp [h]
  omega

theorem nonexcluded_from_le (env : Env) (folder : Folder) (m j : Nat) :
    nonexcluded_from env folder m j ≤ j := by
  unfold nonexcluded_from
  exact (List.countP_le_length _).trans (by simp)

/-! ## The backward walk -/

theorem streak_walk_succ (env : Env) (folder : Folder) (fuel : Nat) (offset streak : Int) :
    streak_walk env folder (fuel + 1) offset streak =
      if day_excluded env folder offset then
        streak_walk env folder fuel (wrap32 (offset - 1)) streak
      else if day_marked env folder offset then
        streak_walk env folder fuel (wrap32 (offset - 1)) (wrap32 (streak + 1))
      else some streak := rfl

/-- While every examined day is excluded or marked the walk goes on, counting
the days that are not excluded. -/
theorem streak_walk_run (env : Env) (folder : Folder) (fuel : Nat) :
    ∀ (j m : Nat) (s : Int),
      (∀ i, i < j → day_excluded env folder (-((m + i : Nat) : Int)) = false →
        day_marked env folder (-((m + i : Nat) : Int)) = true) →
      streak_walk env folder (fuel + j) (wrap32 (-(m : Int))) (wrap32 s) =
        streak_walk env folder fuel (wrap32 (-((m + j : Nat) : Int)))
          (wrap32 (s + nonexcluded_from env folder m j)) := by
  intro j
  induction j with
  | zero => intro m s _; simp [nonexcluded_from]
  | succ j ih =>
    intro m s h
    have h0 := h 0 (Nat.succ_pos j)
    simp only [Nat.add_zero] at h0
    have hrest : ∀ i, i < j → day_excluded env folder (-((m + 1 + i : Nat) : Int)) = false →
        day_marked env folder (-((m + 1 + i : Nat) : Int)) = true := by
      intro i hi
      have := h (i + 1) (Nat.succ_lt_succ hi)
      rwa [show m + (i + 1) = m + 1 + i by omega] at this
    have hex : day_excluded env folder (wrap32 (-(m : Int))) = day_excluded env folder (-(m : Int)) :=
      day_excluded_congr env folder (offset_instant_wrap32 env _)
    have hmk : day_marked env folder (wrap32 (-(m : Int))) = day_marked env folder (-(m : Int)) :=
      day_marked_congr env folder (offset_instant_wrap32 env _)
    have hnext : wrap32 (wrap32 (-(m : Int)) - 1) = wrap32 (-((m + 1 : Nat) : Int)) := by
      rw [wrap32_pred_wrap32]; congr 1; push_cast; ring
    rw [show fuel + (j + 1) = (fuel + j) + 1 by omega, streak_walk_succ, hex, hmk, hnext,
      nonexcluded_from_succ, show m + (j + 1) = m + 1 + j by omega]
    cases hx : day_excluded env folder (-(m : Int)) with
    | true =>
      simp only [if_true]
      rw [ih (m + 1) s hrest]
      simp
    | false =>
      rw [h0 hx]
      simp only [Bool.false_eq_true, if_false, if_true]
      rw [wrap32_succ_wrap32, ih (m + 1) (s + 1) hrest]
      congr 2; push_cast; ring

theorem day_of_week_mem (env : Env) (offset : Int) : day_of_week env offset ∈ days := by
  unfold day_of_week localtime
  simp only
  have h1 : 0 ≤ (local_day env (offset_instant env offset) + 4) % 7 :=
    Int.emod_nonneg _ (by decide)
  have h2 : (local_day env (offset_instant env offset) + 4) % 7 < 7 :=
    Int.emod_lt_of_pos _ (by decide)
  generalize (local_day env (offset_instant env offset) + 4) % 7 = w at h1 h2
  have h3 : w.toNat < 7 := by omega
  generalize w.toNat = n at h3
  interval_cases n <;> simp [days]

theorem nonexcluded_from_of_none (env : Env) (folder : Folder)
    (h : ∀ d, d ∈ days → is_day_in_days_file folder d = false) (m j : Nat) :
    nonexcluded_from env folder m j = j := by
  unfold nonexcluded_from
  rw [List.countP_eq_length.mpr]
  · simp
  · intro i _
    simp [day_excluded, h _ (day_of_week_mem env _)]

/-- A walk that stops does so within `2^25` iterations. -/
theorem stop_day_le_period (env : Env) (folder : Folder) (k : Nat)
    (hstop_excl : day_excluded env folder (-(k : Int)) = false)
    (hstop_mark : day_marked env folder (-(k : Int)) = false)
    (hrun : ∀ i : Nat, 1 ≤ i → i < k → day_excluded env folder (-(i : Int)) = false →
      day_marked env folder (-(i : Int)) = true) :
    k ≤ 33554432 := by
  by_contra hlt
  have hk : 33554432 < k := by omega
  have hinst : offset_instant env (-(k : Int))
      = offset_instant env (-((k - 33554432 : Nat) : Int)) := by
    have he : -(k : Int) + 33554432 = -((k - 33554432 : Nat) : Int) := by omega
    rw [← offset_instant_period env (-(k : Int)), he]
  have h1 := hrun (k - 33554432) (by omega) (by omega)
    (by rw [← day_excluded_congr env folder hinst]; exact hstop_excl)
  rw [← day_marked_congr env folder hinst, hstop_mark] at h1
  exact Bool.false_ne_true h1

/-- The walk proper: with the first non-excluded unmarked day at offset `-k`,
`k` iterations are needed and suffice, and the count is that of the
non-excluded days before it. -/
theorem streak_walk_stops (env : Env) (folder : Folder) (k : Nat) (hk : 1 ≤ k)
    (hstop_excl : day_excluded env folder (-(k : Int)) = false)
    (hstop_mark : day_marked env folder (-(k : Int)) = false)
    (hrun : ∀ i : Nat, 1 ≤ i → i < k → day_excluded env folder (-(i : Int)) = false →
      day_marked env folder (-(i : Int)) = true)
    (fuel : Nat) (hfuel : k ≤ fuel) :
    streak_walk env folder fuel (-1) 0 = some (nonexcluded_count env folder (k - 1) : Int) := by
  have hper := stop_day_le_period env folder k hstop_excl hstop_mark hrun
  have hrun1 : ∀ i, i < k - 1 → day_excluded env folder (-((1 + i : Nat) : Int)) = false →
      day_marked env folder (-((1 + i : Nat) : Int)) = true := by
    intro i hi
    exact hrun (1 + i) (by omega) (by omega)
  have hwalk := streak_walk_run env folder (fuel - k + 1) (k - 1) 1 0 hrun1
  have hw1 : wrap32 (-((1 : Nat) : Int)) = -1 := by unfold wrap32; omega
  have hw0 : wrap32 0 = 0 := by unfold wrap32; omega
  rw [hw1, hw0, show fuel - k + 1 + (k - 1) = fuel by omega, show 1 + (k - 1) = k by omega,
    Int.zero_add] at hwalk
  rw [hwalk, show fuel - k + 1 = (fuel - k) + 1 by omega, streak_walk_succ,
    day_excluded_congr env folder (offset_instant_wrap32 env _),
    day_marked_congr env folder (offset_instant_wrap32 env _), hstop_excl, hstop_mark]
  simp only [Bool.false_eq_true, if_false]
  have hle := nonexcluded_from_le env folder 1 (k - 1)
  unfold nonexcluded_count
  rw [wrap32_of_range _ (by omega) (by omega)]

/-! ## C1: the streak is the run of marked days before the first gap -/

/-- The result in terms of the days that the program itself resolves. When
the day at offset `-k` (`k ≥ 1`) is not excluded and has no
marker while every non-excluded day at the offsets `-1 .. -(k-1)` has one,
`calculate_streak` returns (any fuel `≥ k` is enough) the number of
non-excluded days among the offsets `-1 .. -(k-1)`, plus one when today has a
marker; with no weekday excluded that number is `k - 1`, the length of the
run of marked offsets. -/
theorem calculate_streak_counts_run (env : Env) (folder : Folder) (k : Nat) (hk : 1 ≤ k)
    (hstop_excl : day_excluded env folder (-(k : Int)) = false)
    (hstop_mark : day_marked env folder (-(k : Int)) = false)
    (hrun : ∀ i : Nat, 1 ≤ i → i < k → day_excluded env folder (-(i : Int)) = false →
      day_marked env folder (-(i : Int)) = true) :
    (∀ fuel, k ≤ fuel → calculate_streak env folder fuel =
      some ((nonexcluded_count env folder (k - 1) : Int)
        + (if day_marked env folder 0 then 1 else 0)))
    ∧ ((∀ d, d ∈ days → is_day_in_days_file folder d = false) →
      ∀ fuel, k ≤ fuel → calculate_streak env folder fuel =
        some (((k - 1 : Nat) : Int) + (if day_marked env folder 0 then 1 else 0))) := by
  have hper := stop_day_le_period env folder k hstop_excl hstop_mark hrun
  have hle := nonexcluded_from_le env folder 1 (k - 1)
  have main : ∀ fuel, k ≤ fuel → calculate_streak env folder fuel =
      some ((nonexcluded_count env folder (k - 1) : Int)
        + (if day_marked env folder 0 then 1 else 0)) := by
    intro fuel hfuel
    unfold calculate_streak
    rw [streak_walk_stops env folder k hk hstop_excl hstop_mark hrun fuel hfuel]
    simp only
    unfold day_marked
    cases access folder (get_date_with_offset env 11 0)
    · simp
    · simp only [if_true]
      rw [wrap32_of_range _ (by unfold nonexcluded_count; omega)
        (by unfold nonexcluded_count; omega)]
  refine ⟨main, ?_⟩
  intro hnone fuel hfuel
  rw [main fuel hfuel]
  unfold nonexcluded_count
  rw [nonexcluded_from_of_none env folder hnone]

/-- At 12:00 UTC, markers on today, yesterday and the day before, none
earlier, no exclusion: the streak is 3. -/
theorem calculate_streak_counts_run_witness :
    calculate_streak noon_utc three_markers 3 = some 3 := by
  have h := (calculate_streak_counts_run noon_utc three_markers 3 (by decide) (by decide)
    (by decide) (by intro i h1 h2; interval_cases i <;> decide)).2 (by decide) 3 (le_refl 3)
  rw [h]
  decide

/-- C1 on the code. New York, 23:30 on the 25-hour Sunday 2026-11-01, no
`days.txt`, markers on today, on yesterday 2026-10-31 and on the day before,
none earlier: the run of marked days that ends yesterday has length 2 and
the streak should be 3. The instant 86400 seconds back is 00:30 of the same
Sunday, so offset `-1` is today once more; the walk counts 2026-11-01,
2026-10-31 and 2026-10-30, stops at offset `-4`, and with today's marker
`calculate_streak` returns 4. On the 23-hour Sunday 2026-03-08, read at 00:30
of the Monday after, offset `-1` is 2026-03-07: yesterday's marker is never
looked at and the result is 0 where the run that ends yesterday has length 1. -/
theorem streak_counts_today_twice :
    civil_from_days (local_day new_york_fall_back new_york_fall_back.now) = (2026, 11, 1)
    ∧ civil_from_days (local_day new_york_fall_back new_york_fall_back.now - 1) = (2026, 10, 31)
    ∧ civil_from_days (local_day new_york_fall_back new_york_fall_back.now - 2) = (2026, 10, 30)
    ∧ get_date_with_offset new_york_fall_back 11 0 = "2026-11-01".toList
    ∧ get_date_with_offset new_york_fall_back 11 (-1) = "2026-11-01".toList
    ∧ get_date_with_offset new_york_fall_back 11 (-2) = "2026-10-31".toList
    ∧ get_date_with_offset new_york_fall_back 11 (-3) = "2026-10-30".toList
    ∧ get_date_with_offset new_york_fall_back 11 (-4) = "2026-10-29".toList
    ∧ streak_walk new_york_fall_back three_days_nov 4 (-1) 0 = some 3
    ∧ calculate_streak new_york_fall_back three_days_nov 4 = some 4
    ∧ civil_from_days (local_day new_york_spring_forward new_york_spring_forward.now)
        = (2026, 3, 9)
    ∧ civil_from_days (local_day new_york_spring_forward new_york_spring_forward.now - 1)
        = (2026, 3, 8)
    ∧ get_date_with_offset new_york_spring_forward 11 0 = "2026-03-09".toList
    ∧ get_date_with_offset new_york_spring_forward 11 (-1) = "2026-03-07".toList
    ∧ calculate_streak new_york_spring_forward marked_mar_eighth 1 = some 0 := by
  decide

/-! ## C2: the week strip -/

theorem build_streak_string_eq (env : Env) (folder : Folder) (buf : List Char)
    (hbuf : 8 ≤ buf.length) :
    build_streak_string env folder buf =
      [strip_glyph env folder (-6), strip_glyph env folder (-5), strip_glyph env folder (-4),
        strip_glyph env folder (-3), strip_glyph env folder (-2), strip_glyph env folder (-1),
        strip_glyph env folder 0, '\x00'] ++ buf.drop 8 := by
  rcases buf with _ | ⟨b0, _ | ⟨b1, _ | ⟨b2, _ | ⟨b3, _ | ⟨b4, _ | ⟨b5, _ | ⟨b6, _ | ⟨b7, rest⟩⟩⟩⟩⟩⟩⟩⟩
    <;> simp at hbuf
  simp [build_streak_string, List.foldl, List.set]

theorem strip_glyph_cases (env : Env) (folder : Folder) (i : Int) :
    (day_excluded env folder i = true → strip_glyph env folder i = '/')
    ∧ (day_excluded env folder i = false → day_marked env folder i = true →
        strip_glyph env folder i = 'X')
    ∧ (day_excluded env folder i = false → day_marked env folder i = false →
        strip_glyph env folder i = ' ') := by
  unfold strip_glyph day_excluded day_marked
  refine ⟨fun h => by simp [h], fun h1 h2 => by simp [h1, h2], fun h1 h2 => by simp [h1, h2]⟩

/-- The strip in terms of the days that the program itself resolves. On a
buffer of at least 8 bytes `build_streak_string` writes 7 glyphs
and the terminating NUL, and nothing else; the glyph at index `k` (`0 .. 6`)
tells of the day resolved at offset `k - 6`: `'/'` when its weekday is listed in
`days.txt` (marker or not, today included), else `'X'` when its marker file
exists, else `' '`. A habit without markers and without excluded weekday
renders as seven blanks. -/
theorem build_streak_string_glyphs (env : Env) (folder : Folder) (buf : List Char)
    (hbuf : 8 ≤ buf.length) :
    (build_streak_string env folder buf).length = buf.length
    ∧ (build_streak_string env folder buf).drop 8 = buf.drop 8
    ∧ (build_streak_string env folder buf)[7]? = some '\x00'
    ∧ (∀ k : Nat, k < 7 →
        ∃ g, (build_streak_string env folder buf)[k]? = some g
          ∧ (day_excluded env folder ((k : Int) - 6) = true → g = '/')
          ∧ (day_excluded env folder ((k : Int) - 6) = false →
              day_marked env folder ((k : Int) - 6) = true → g = 'X')
          ∧ (day_excluded env folder ((k : Int) - 6) = false →
              day_marked env folder ((k : Int) - 6) = false → g = ' '))
    ∧ ((∀ d, d ∈ days → is_day_in_days_file folder d = false) → folder.files = [] →
        (build_streak_string env folder buf).take 7 = [' ', ' ', ' ', ' ', ' ', ' ', ' ']) := by
  rw [build_streak_string_eq env folder buf hbuf]
  refine ⟨?_, ?_, ?_, ?_, ?_⟩
  · simp; omega
  · simp
  · simp
  · intro k hk
    refine ⟨strip_glyph env folder ((k : Int) - 6), ?_, strip_glyph_cases env folder _⟩
    interval_cases k <;> simp
  · intro hnone hfiles
    have hg : ∀ i, strip_glyph env folder i = ' ' := by
      intro i
      refine (strip_glyph_cases env folder i).2.2 ?_ ?_
      · exact hnone _ (day_of_week_mem env i)
      · simp [day_marked, access, hfiles]
    simp [hg]

/-- At 12:00 UTC, the strip of a habit marked on the last three days, in
the 8-byte buffer of `main`. -/
theorem build_streak_string_glyphs_witness :
    (build_streak_string noon_utc three_markers (List.replicate 8 'q'))[7]? = some '\x00'
    ∧ (build_streak_string noon_utc three_markers (List.replicate 8 'q')).take 7
        = [' ', ' ', ' ', ' ', 'X', 'X', 'X'] :=
  ⟨(build_streak_string_glyphs noon_utc three_markers (List.replicate 8 'q')
    (by decide)).2.2.1, by decide⟩

/-- C2 on the code. New York, 23:30 on the 25-hour Sunday 2026-11-01, a habit
that excludes Saturdays and is marked today. The seven days up to today are
2026-10-26 .. 2026-11-01, yesterday being Saturday 2026-10-31, so the strip
should be five blanks, `'/'` for yesterday and `'X'` for today, as it is when
read at 00:30 of the same Sunday. At 23:30 the offsets `-6 .. 0` resolve to
2026-10-27 .. 2026-10-31, 2026-11-01, 2026-11-01: the leftmost column is the
day five days ago, columns 5 and 6 both show today's `'X'`, and Saturday's
`'/'` stands in column 4. -/
theorem strip_shows_today_twice :
    civil_from_days (local_day new_york_fall_back new_york_fall_back.now - 6) = (2026, 10, 26)
    ∧ civil_from_days (local_day new_york_fall_back new_york_fall_back.now - 1) = (2026, 10, 31)
    ∧ days.getD ((local_day new_york_fall_back new_york_fall_back.now - 1 + 4) % 7).toNat []
        = ['s', 'a']
    ∧ civil_from_days (local_day new_york_fall_back new_york_fall_back.now) = (2026, 11, 1)
    ∧ get_date_with_offset new_york_fall_back 11 (-6) = "2026-10-27".toList
    ∧ get_date_with_offset new_york_fall_back 11 (-2) = "2026-10-31".toList
    ∧ day_of_week new_york_fall_back (-2) = ['s', 'a']
    ∧ get_date_with_offset new_york_fall_back 11 (-1) = "2026-11-01".toList
    ∧ get_date_with_offset new_york_fall_back 11 0 = "2026-11-01".toList
    ∧ build_streak_string new_york_fall_back saturday_off_marked eight_bytes
        = [' ', ' ', ' ', ' ', '/', 'X', 'X', '\x00']
    ∧ local_day new_york_morning new_york_morning.now
        = local_day new_york_fall_back new_york_fall_back.now
    ∧ build_streak_string new_york_morning saturday_off_marked eight_bytes
        = [' ', ' ', ' ', ' ', ' ', '/', 'X', '\x00'] := by
  decide

/-! ## The calendar: `civil_from_days` is inverted by `days_from_civil` -/

theorem year_of_era_bounds (doe : Int) (h0 : 0 ≤ doe) (h1 : doe ≤ 146096) :
    0 ≤ (doe - doe / 1460 + doe / 36524 - doe / 146096) / 365 ∧
    (doe - doe / 1460 + doe / 36524 - doe / 146096) / 365 ≤ 399 := by
  omega

theorem day_of_year_bounds_aux (a b c d e f g : Int)
    (hc : 0 ≤ b - 4 * c ∧ b - 4 * c ≤ 3)
    (hd : 0 ≤ b - 100 * d ∧ b - 100 * d ≤ 99)
    (ha : 0 ≤ a ∧ a ≤ 146096)
    (hb : 0 ≤ a - 365 * b - e + f - g ∧ a - 365 * b - e + f - g ≤ 364)
    (he : 0 ≤ a - 1460 * e ∧ a - 1460 * e ≤ 1459)
    (hf : 0 ≤ a - 36524 * f ∧ a - 36524 * f ≤ 36523)
    (hg : 0 ≤ a - 146096 * g ∧ a - 146096 * g ≤ 146095) :
    0 ≤ a - (365 * b + c - d) ∧ a - (365 * b + c - d) ≤ 365 := by
  have hf0 : 0 ≤ f := by omega
  have hf4 : f ≤ 4 := by omega
  have hd0 : 0 ≤ d := by omega
  have hd3 : d ≤ 3 := by omega
  have hg0 : 0 ≤ g := by omega
  have hg1 : g ≤ 1 := by omega
  interval_cases f <;> interval_cases d <;> interval_cases g <;> omega

theorem day_of_year_bounds (doe : Int) (h0 : 0 ≤ doe) (h1 : doe ≤ 146096) :
    0 ≤ doe - (365 * ((doe - doe / 1460 + doe / 36524 - doe / 146096) / 365)
      + (doe - doe / 1460 + doe / 36524 - doe / 146096) / 365 / 4
      - (doe - doe / 1460 + doe / 36524 - doe / 146096) / 365 / 100) ∧
    doe - (365 * ((doe - doe / 1460 + doe / 36524 - doe / 146096) / 365)
      + (doe - doe / 1460 + doe / 36524 - doe / 146096) / 365 / 4
      - (doe - doe / 1460 + doe / 36524 - doe / 146096) / 365 / 100) ≤ 365 := by
  apply day_of_year_bounds_aux doe _ _ _ (doe / 1460) (doe / 36524) (doe / 146096) <;> omega

/-- Round trip: the day number is recovered from the civil date. -/
theorem days_from_civil_civil_from_days (z : Int) :
    days_from_civil (civil_from_days z).1 (civil_from_days z).2.1 (civil_from_days z).2.2
      = z := by
  have hz := Int.ediv_add_emod (z + 719468) 146097
  have hdoe0 : 0 ≤ (z + 719468) % 146097 := Int.emod_nonneg _ (by decide)
  have hdoe1 : (z + 719468) % 146097 < 146097 := Int.emod_lt_of_pos _ (by decide)
  unfold civil_from_days
  simp only
  generalize (z + 719468) / 146097 = era at hz ⊢
  generalize (z + 719468) % 146097 = doe at hz hdoe0 hdoe1 ⊢
  have hy := year_of_era_bounds doe hdoe0 (by omega)
  have hd := day_of_year_bounds doe hdoe0 (by omega)
  generalize (doe - doe / 1460 + doe / 36524 - doe / 146096) / 365 = yoe at hy hd ⊢
  have hdoy : ∃ doy, doy = doe - (365 * yoe + yoe / 4 - yoe / 100) := ⟨_, rfl⟩
  obtain ⟨doy, hdoy⟩ := hdoy
  rw [← hdoy] at hd ⊢
  have hmp0 : 0 ≤ (5 * doy + 2) / 153 := by omega
  have hmp1 : (5 * doy + 2) / 153 ≤ 11 := by omega
  have hmp2 : 153 * ((5 * doy + 2) / 153) ≤ 5 * doy + 2 := by omega
  have hmp3 : 5 * doy + 2 < 153 * ((5 * doy + 2) / 153) + 153 := by omega
  generalize (5 * doy + 2) / 153 = mp at hmp0 hmp1 hmp2 hmp3 ⊢
  have hera : (yoe + era * 400) / 400 = era := by omega
  have hyoe : (yoe + era * 400) % 400 = yoe := by omega
  unfold days_from_civil
  by_cases hlt : mp < 10
  · simp only [hlt, if_true]
    by_cases hm : mp + 3 ≤ 2
    · omega
    · have hm2 : 2 < mp + 3 := by omega
      simp only [hm, hm2, if_false, if_true]
      rw [show mp + 3 - 3 = mp by omega, hera, hyoe]
      omega
  · simp only [hlt, if_false]
    have hm : mp - 9 ≤ 2 := by omega
    have hm2 : ¬ 2 < mp - 9 := by omega
    simp only [hm, hm2, if_false, if_true]
    rw [show mp - 9 + 9 = mp by omega,
      show yoe + era * 400 + 1 - 1 = yoe + era * 400 by omega, hera, hyoe]
    omega

theorem civil_from_days_inj (z1 z2 : Int) (h : civil_from_days z1 = civil_from_days z2) :
    z1 = z2 := by
  rw [← days_from_civil_civil_from_days z1, h, days_from_civil_civil_from_days z2]

theorem era_edges_aux (a b c d e f g : Int)
    (hc : 0 ≤ b - 4 * c ∧ b - 4 * c ≤ 3)
    (hd : 0 ≤ b - 100 * d ∧ b - 100 * d ≤ 99)
    (ha : 0 ≤ a ∧ a ≤ 146096)
    (hb : 0 ≤ a - 365 * b - e + f - g ∧ a - 365 * b - e + f - g ≤ 364)
    (he : 0 ≤ a - 1460 * e ∧ a - 1460 * e ≤ 1459)
    (hf : 0 ≤ a - 36524 * f ∧ a - 36524 * f ≤ 36523)
    (hg : 0 ≤ a - 146096 * g ∧ a - 146096 * g ≤ 146095) :
    (146037 ≤ a → b = 399 ∧ 306 ≤ a - (365 * b + c - d))
    ∧ (a ≤ 146036 → b ≤ 398 ∨ a - (365 * b + c - d) ≤ 305) := by
  have hf0 : 0 ≤ f := by omega
  have hf4 : f ≤ 4 := by omega
  have hd0 : 0 ≤ d := by omega
  have hd3 : d ≤ 3 := by omega
  have hg0 : 0 ≤ g := by omega
  have hg1 : g ≤ 1 := by omega
  interval_cases f <;> interval_cases d <;> interval_cases g <;> omega

theorem era_edges (doe : Int) (h0 : 0 ≤ doe) (h1 : doe ≤ 146096) :
    (146037 ≤ doe → (doe - doe / 1460 + doe / 36524 - doe / 146096) / 365 = 399
      ∧ 306 ≤ doe - (365 * ((doe - doe / 1460 + doe / 36524 - doe / 146096) / 365)
      + (doe - doe / 1460 + doe / 36524 - doe / 146096) / 365 / 4
      - (doe - doe / 1460 + doe / 36524 - doe / 146096) / 365 / 100))
    ∧ (doe ≤ 146036 → (doe - doe / 1460 + doe / 36524 - doe / 146096) / 365 ≤ 398
      ∨ doe - (365 * ((doe - doe / 1460 + doe / 36524 - doe / 146096) / 365)
      + (doe - doe / 1460 + doe / 36524 - doe / 146096) / 365 / 4
      - (doe - doe / 1460 + doe / 36524 - doe / 146096) / 365 / 100) ≤ 305) := by
  apply era_edges_aux doe _ _ _ (doe / 1460) (doe / 36524) (doe / 146096) <;> omega

/-- Between 0000-01-01 and 9999-12-31 the year has at most four digits, the
month and the day at most two. -/
theorem civil_from_days_range (z : Int) (h0 : -719528 ≤ z) (h1 : z ≤ 2932896) :
    (0 ≤ (civil_from_days z).1 ∧ (civil_from_days z).1 ≤ 9999)
    ∧ (1 ≤ (civil_from_days z).2.1 ∧ (civil_from_days z).2.1 ≤ 12)
    ∧ (1 ≤ (civil_from_days z).2.2 ∧ (civil_from_days z).2.2 ≤ 31) := by
  have hz := Int.ediv_add_emod (z + 719468) 146097
  have hdoe0 : 0 ≤ (z + 719468) % 146097 := Int.emod_nonneg _ (by decide)
  have hdoe1 : (z + 719468) % 146097 < 146097 := Int.emod_lt_of_pos _ (by decide)
  unfold civil_from_days
  simp only
  generalize (z + 719468) / 146097 = era at hz ⊢
  generalize (z + 719468) % 146097 = doe at hz hdoe0 hdoe1 ⊢
  have hy := year_of_era_bounds doe hdoe0 (by omega)
  have hd := day_of_year_bounds doe hdoe0 (by omega)
  have hedge := era_edges doe hdoe0 (by omega)
  generalize (doe - doe / 1460 + doe / 36524 - doe / 146096) / 365 = yoe at hy hd hedge ⊢
  have hdoy : ∃ doy, doy = doe - (365 * yoe + yoe / 4 - yoe / 100) := ⟨_, rfl⟩
  obtain ⟨doy, hdoy⟩ := hdoy
  rw [← hdoy] at hd hedge ⊢
  have hmp0 : 0 ≤ (5 * doy + 2) / 153 := by omega
  have hmp1 : (5 * doy + 2) / 153 ≤ 11 := by omega
  have hmp2 : 153 * ((5 * doy + 2) / 153) ≤ 5 * doy + 2 := by omega
  have hmp3 : 5 * doy + 2 < 153 * ((5 * doy + 2) / 153) + 153 := by omega
  generalize (5 * doy + 2) / 153 = mp at hmp0 hmp1 hmp2 hmp3 ⊢
  have hera0 : -1 ≤ era := by omega
  have hera1 : era ≤ 24 := by omega
  refine ⟨?_, ?_, ?_⟩
  · split_ifs <;> constructor <;> omega
  · split_ifs <;> omega
  · interval_cases mp <;> omega

/-! ## The date key: `"%04d-%02d-%02d"` -/

theorem dec_digits_lt (f n : Nat) (acc : List Char) (h : n < 10) :
    dec_digits (f + 1) n acc = digit_char n :: acc := by
  simp [dec_digits, h]

theorem dec_digits_ge (f n : Nat) (acc : List Char) (h : 10 ≤ n) :
    dec_digits (f + 1) n acc = dec_digits f (n / 10) (digit_char n :: acc) := by
  have h2 : ¬ n < 10 := by omega
  simp [dec_digits, h2]

theorem digit_char_zero (n : Nat) (h : n = 0) : digit_char n = '0' := by
  subst h; rfl

theorem digit_char_inj (a b : Nat) (h : digit_char a = digit_char b) : a % 10 = b % 10 := by
  unfold digit_char at h
  have ha : a % 10 < 10 := Nat.mod_lt _ (by decide)
  have hb : b % 10 < 10 := Nat.mod_lt _ (by decide)
  generalize a % 10 = x at h ha ⊢
  generalize b % 10 = y at h hb ⊢
  interval_cases x <;> interval_cases y <;> first | rfl | (exact absurd h (by decide))

theorem printf_04d (n : Nat) (h : n ≤ 9999) :
    printf_0d 4 (n : Int) =
      [digit_char (n / 1000), digit_char (n / 100), digit_char (n / 10), digit_char n] := by
  unfold printf_0d
  have hneg : ¬ ((n : Int) < 0) := by omega
  simp only [hneg, if_false, Int.natAbs_ofNat]
  by_cases h1 : n < 10
  · rw [dec_digits_lt n n [] h1, digit_char_zero (n / 1000) (by omega),
      digit_char_zero (n / 100) (by omega), digit_char_zero (n / 10) (by omega)]
    rfl
  · obtain ⟨f, rfl⟩ : ∃ f, n = f + 1 := ⟨n - 1, by omega⟩
    rw [dec_digits_ge _ _ _ (by omega)]
    by_cases h2 : f + 1 < 100
    · rw [dec_digits_lt f ((f + 1) / 10) _ (by omega),
        digit_char_zero ((f + 1) / 1000) (by omega), digit_char_zero ((f + 1) / 100) (by omega)]
      rfl
    · obtain ⟨g, rfl⟩ : ∃ g, f = g + 1 := ⟨f - 1, by omega⟩
      rw [dec_digits_ge _ _ _ (by omega)]
      by_cases h3 : g + 1 + 1 < 1000
      · rw [show (g + 1 + 1) / 10 / 10 = (g + 1 + 1) / 100 by omega,
          dec_digits_lt g ((g + 1 + 1) / 100) _ (by omega),
          digit_char_zero ((g + 1 + 1) / 1000) (by omega)]
        rfl
      · obtain ⟨k, rfl⟩ : ∃ k, g = k + 1 := ⟨g - 1, by omega⟩
        rw [dec_digits_ge _ _ _ (by omega),
          show (k + 1 + 1 + 1) / 10 / 10 = (k + 1 + 1 + 1) / 100 by omega,
          show (k + 1 + 1 + 1) / 100 / 10 = (k + 1 + 1 + 1) / 1000 by omega,
          dec_digits_lt k ((k + 1 + 1 + 1) / 1000) _ (by omega)]
        rfl

theorem printf_02d (n : Nat) (h : n ≤ 99) :
    printf_0d 2 (n : Int) = [digit_char (n / 10), digit_char n] := by
  unfold printf_0d
  have hneg : ¬ ((n : Int) < 0) := by omega
  simp only [hneg, if_false, Int.natAbs_ofNat]
  by_cases h1 : n < 10
  · rw [dec_digits_lt n n [] h1, digit_char_zero (n / 10) (by omega)]
    rfl
  · obtain ⟨f, rfl⟩ : ∃ f, n = f + 1 := ⟨n - 1, by omega⟩
    rw [dec_digits_ge _ _ _ (by omega), dec_digits_lt f ((f + 1) / 10) _ (by omega)]
    rfl

/-- With a year of at most four digits the ten characters of the key fit the
buffer of 11 bytes. -/
theorem snprintf_date_eq (y m d : Nat) (hy : y ≤ 9999) (hm : m ≤ 99) (hd : d ≤ 99) :
    snprintf_date 11 (y : Int) (m : Int) (d : Int) =
      [digit_char (y / 1000), digit_char (y / 100), digit_char (y / 10), digit_char y, '-',
        digit_char (m / 10), digit_char m, '-', digit_char (d / 10), digit_char d] := by
  unfold snprintf_date
  rw [printf_04d y hy, printf_02d m hm, printf_02d d hd]
  rfl

theorem snprintf_date_inj (y m d y2 m2 d2 : Int)
    (hy : 0 ≤ y ∧ y ≤ 9999) (hm : 0 ≤ m ∧ m ≤ 99) (hd : 0 ≤ d ∧ d ≤ 99)
    (hy2 : 0 ≤ y2 ∧ y2 ≤ 9999) (hm2 : 0 ≤ m2 ∧ m2 ≤ 99) (hd2 : 0 ≤ d2 ∧ d2 ≤ 99)
    (h : snprintf_date 11 y m d = snprintf_date 11 y2 m2 d2) :
    y = y2 ∧ m = m2 ∧ d = d2 := by
  obtain ⟨a, rfl⟩ := Int.eq_ofNat_of_zero_le hy.1
  obtain ⟨b, rfl⟩ := Int.eq_ofNat_of_zero_le hm.1
  obtain ⟨c, rfl⟩ := Int.eq_ofNat_of_zero_le hd.1
  obtain ⟨a2, rfl⟩ := Int.eq_ofNat_of_zero_le hy2.1
  obtain ⟨b2, rfl⟩ := Int.eq_ofNat_of_zero_le hm2.1
  obtain ⟨c2, rfl⟩ := Int.eq_ofNat_of_zero_le hd2.1
  rw [snprintf_date_eq a b c (by omega) (by omega) (by omega),
    snprintf_date_eq a2 b2 c2 (by omega) (by omega) (by omega)] at h
  simp only [List.cons.injEq, and_true, true_and] at h
  obtain ⟨e1, e2, e3, e4, e5, e6, e7, e8⟩ := h
  have f1 := digit_char_inj _ _ e1
  have f2 := digit_char_inj _ _ e2
  have f3 := digit_char_inj _ _ e3
  have f4 := digit_char_inj _ _ e4
  have f5 := digit_char_inj _ _ e5
  have f6 := digit_char_inj _ _ e6
  have f7 := digit_char_inj _ _ e7
  have f8 := digit_char_inj _ _ e8
  refine ⟨?_, ?_, ?_⟩ <;> omega

/-! ## C3: markers of excluded days -/

theorem offset_instant_near (env : Env) (o : Int) :
    env.now - 2147483648 ≤ offset_instant env o ∧ offset_instant env o < env.now + 2147483648 := by
  unfold offset_instant wrap32; omega

theorem local_day_range (env : Env) (hclock : four_digit_years env) (o : Int) :
    -719528 ≤ local_day env (offset_instant env o)
      ∧ local_day env (offset_instant env o) ≤ 2932896 := by
  have h := hclock _ (offset_instant_near env o).1 (offset_instant_near env o).2
  unfold local_day
  omega

/-- With four-digit years the date key tells the local day. -/
theorem date_key_determines_day (env : Env) (hclock : four_digit_years env) (a b : Int)
    (h : get_date_with_offset env 11 a = get_date_with_offset env 11 b) :
    local_day env (offset_instant env a) = local_day env (offset_instant env b) := by
  have ra := civil_from_days_range _ (local_day_range env hclock a).1 (local_day_range env hclock a).2
  have rb := civil_from_days_range _ (local_day_range env hclock b).1 (local_day_range env hclock b).2
  unfold get_date_with_offset localtime at h
  simp only [sub_add_cancel] at h
  have hinj := snprintf_date_inj _ _ _ _ _ _ ra.1 (by omega) (by omega) rb.1 (by omega)
    (by omega) h
  apply civil_from_days_inj
  exact Prod.ext hinj.1 (Prod.ext hinj.2.1 hinj.2.2)

theorem date_key_determines_weekday (env : Env) (hclock : four_digit_years env) (a b : Int)
    (h : get_date_with_offset env 11 a = get_date_with_offset env 11 b) :
    day_of_week env a = day_of_week env b := by
  unfold day_of_week localtime
  simp only
  rw [date_key_determines_day env hclock a b h]

theorem is_day_in_days_file_congr (f1 f2 : Folder) (h : f1.days_txt = f2.days_txt)
    (d : List Char) : is_day_in_days_file f1 d = is_day_in_days_file f2 d := by
  unfold is_day_in_days_file; rw [h]

/-- Two folders with the same `days.txt` that differ at most by the marker of
a date key whose weekday is excluded are walked alike. -/
theorem streak_walk_congr (env : Env) (hclock : four_digit_years env) (f1 f2 : Folder)
    (o : Int) (hexcl : day_excluded env f1 o = true)
    (hdays : f1.days_txt = f2.days_txt)
    (hfiles : ∀ name, name ≠ get_date_with_offset env 11 o → access f1 name = access f2 name) :
    ∀ (fuel : Nat) (offset streak : Int),
      streak_walk env f1 fuel offset streak = streak_walk env f2 fuel offset streak := by
  intro fuel
  induction fuel with
  | zero => intro offset streak; rfl
  | succ fuel ih =>
    intro offset streak
    rw [streak_walk_succ, streak_walk_succ]
    have he : day_excluded env f1 offset = day_excluded env f2 offset :=
      is_day_in_days_file_congr f1 f2 hdays _
    rw [← he]
    cases hx : day_excluded env f1 offset with
    | true => simp only [if_true]; exact ih _ _
    | false =>
      have hne : get_date_with_offset env 11 offset ≠ get_date_with_offset env 11 o := by
        intro heq
        have hw := date_key_determines_weekday env hclock offset o heq
        unfold day_excluded at hx hexcl
        rw [hw, hexcl] at hx
        exact Bool.noConfusion hx
      have hm : day_marked env f1 offset = day_marked env f2 offset := hfiles _ hne
      rw [← hm]
      cases day_marked env f1 offset with
      | true => simp only [Bool.false_eq_true, if_false, if_true]; exact ih _ _
      | false => rfl

/-- C3. Let the weekday of the day that the program resolves at an offset be
excluded, and let that day be a past day: its date key differs from today's.
With years of four digits, two folders with the same `days.txt` whose marker
files differ at most by that date key give the same result of
`calculate_streak`, for every fuel; and the iteration of the walk at that
offset hands the count on, unchanged, to the next older day. The excluded
past day neither breaks the streak nor adds to it, marked or not. -/
theorem excluded_day_marker_is_ignored (env : Env) (hclock : four_digit_years env)
    (f1 f2 : Folder) (o : Int)
    (hexcl : day_excluded env f1 o = true)
    (hpast : get_date_with_offset env 11 o ≠ get_date_with_offset env 11 0)
    (hdays : f1.days_txt = f2.days_txt)
    (hfiles : ∀ name, name ≠ get_date_with_offset env 11 o → access f1 name = access f2 name)
    (fuel : Nat) :
    calculate_streak env f1 fuel = calculate_streak env f2 fuel
    ∧ (∀ (n : Nat) (streak : Int),
        streak_walk env f1 (n + 1) o streak = streak_walk env f1 n (wrap32 (o - 1)) streak
        ∧ streak_walk env f2 (n + 1) o streak = streak_walk env f2 n (wrap32 (o - 1)) streak) := by
  refine ⟨?_, ?_⟩
  · unfold calculate_streak
    rw [streak_walk_congr env hclock f1 f2 o hexcl hdays hfiles fuel (-1) 0,
      hfiles _ (Ne.symm hpast)]
  · intro n streak
    have hexcl2 : day_excluded env f2 o = true := by
      rw [← hexcl]
      exact (is_day_in_days_file_congr f1 f2 hdays _).symm
    rw [streak_walk_succ, streak_walk_succ, hexcl, hexcl2]
    exact ⟨rfl, rfl⟩

theorem four_digit_years_noon_utc : four_digit_years noon_utc := by
  intro t h1 h2
  simp only [noon_utc] at h1 h2 ⊢
  omega

/-- C3 at work: Wednesday excluded, the marker of Wednesday 2026-10-28
(offset `-2`) present or absent, the streak is 1 either way: the walk goes
past that Wednesday to the unmarked Tuesday. -/
theorem excluded_day_marker_is_ignored_witness :
    calculate_streak noon_utc wednesday_off_marked 4 = some 1
    ∧ calculate_streak noon_utc wednesday_off_unmarked 4 = some 1 :=
  ⟨by decide,
   (excluded_day_marker_is_ignored noon_utc four_digit_years_noon_utc
      wednesday_off_marked wednesday_off_unmarked (-2) (by decide) (by decide) rfl
      (by
        intro name hne
        have hne2 : name ≠ "2026-10-28".toList := by
          intro h; exact hne (h.trans (by decide))
        simp at hne2
        simp [access, wednesday_off_marked, wednesday_off_unmarked, hne2]) 4).1.symm.trans
    (by decide)⟩

/-! ## C4: today's marker -/

theorem nonexcluded_from_congr (env : Env) (f1 f2 : Folder) (hdays : f1.days_txt = f2.days_txt)
    (m j : Nat) : nonexcluded_from env f1 m j = nonexcluded_from env f2 m j := by
  unfold nonexcluded_from day_excluded
  simp only [is_day_in_days_file_congr f1 f2 hdays]

/-- Where the walk meets no day with today's date key. Let two folders have
the same `days.txt` and the same marker
files except that of today's date key, present in the first and absent from
the second, and let the walk on the second stop at offset `-k`. If none of the
non-excluded days at the offsets `-1 .. -k` resolves to today's date key,
`calculate_streak` on the first folder is `calculate_streak` on the second
plus exactly 1, whether today's weekday is excluded or not. -/
theorem today_marker_adds_one (env : Env) (f1 f2 : Folder) (k : Nat) (hk : 1 ≤ k)
    (hdays : f1.days_txt = f2.days_txt)
    (hfiles : ∀ name, name ≠ get_date_with_offset env 11 0 → access f1 name = access f2 name)
    (hm1 : day_marked env f1 0 = true) (hm2 : day_marked env f2 0 = false)
    (hstop_excl : day_excluded env f2 (-(k : Int)) = false)
    (hstop_mark : day_marked env f2 (-(k : Int)) = false)
    (hrun : ∀ i : Nat, 1 ≤ i → i < k → day_excluded env f2 (-(i : Int)) = false →
      day_marked env f2 (-(i : Int)) = true)
    (halias : ∀ i : Nat, 1 ≤ i → i ≤ k → day_excluded env f2 (-(i : Int)) = false →
      get_date_with_offset env 11 (-(i : Int)) ≠ get_date_with_offset env 11 0)
    (fuel : Nat) (hfuel : k ≤ fuel) :
    ∃ n, calculate_streak env f2 fuel = some n ∧ calculate_streak env f1 fuel = some (n + 1) := by
  have hex : ∀ o, day_excluded env f1 o = day_excluded env f2 o :=
    fun o => is_day_in_days_file_congr f1 f2 hdays _
  have hmk : ∀ i : Nat, 1 ≤ i → i ≤ k → day_excluded env f2 (-(i : Int)) = false →
      day_marked env f1 (-(i : Int)) = day_marked env f2 (-(i : Int)) :=
    fun i h1 h2 h3 => hfiles _ (halias i h1 h2 h3)
  have hper := stop_day_le_period env f2 k hstop_excl hstop_mark hrun
  have hle := nonexcluded_from_le env f2 1 (k - 1)
  have w2 := streak_walk_stops env f2 k hk hstop_excl hstop_mark hrun fuel hfuel
  have w1 := streak_walk_stops env f1 k hk (by rw [hex]; exact hstop_excl)
    (by rw [hmk k hk (le_refl k) hstop_excl]; exact hstop_mark)
    (by
      intro i h1 h2 h3
      rw [hex] at h3
      rw [hmk i h1 (by omega) h3]
      exact hrun i h1 h2 h3) fuel hfuel
  refine ⟨(nonexcluded_count env f2 (k - 1) : Int), ?_, ?_⟩
  · unfold calculate_streak
    unfold day_marked at hm2
    rw [w2]
    simp [hm2]
  · unfold calculate_streak
    unfold day_marked at hm1
    rw [w1]
    simp only [hm1, if_true]
    unfold nonexcluded_count at *
    rw [nonexcluded_from_congr env f1 f2 hdays, wrap32_of_range _ (by omega) (by omega)]

/-- At 12:00 UTC, markers on the two days before today, today's marker
added: the streak goes from 2 to 3. -/
theorem today_marker_adds_one_witness :
    ∃ n, calculate_streak noon_utc two_markers 3 = some n
      ∧ calculate_streak noon_utc three_markers 3 = some (n + 1) :=
  today_marker_adds_one noon_utc three_markers two_markers 3 (by decide) rfl
    (by
      intro name hne
      have hne2 : name ≠ "2026-10-30".toList := by
        intro h; exact hne (h.trans (by decide))
      simp at hne2
      simp [access, three_markers, two_markers, hne2])
    (by decide) (by decide) (by decide) (by decide)
    (by intro i h1 h2; interval_cases i <;> decide)
    (by intro i h1 h2; interval_cases i <;> decide) 3 (le_refl 3)

/-- C4 on the code. New York, 23:30 on the 25-hour Sunday 2026-11-01, no
exclusion: the instant 86400 seconds earlier is 00:30 of the same Sunday, so
offset `-1` resolves to today's date key and the walk counts today's marker
before the final test counts it again. The walk stops in both states; with
today's marker the streak is 2, without it 0, where it should be 0 + 1. -/
theorem today_marker_can_add_two :
    get_date_with_offset new_york_fall_back 11 0 = "2026-11-01".toList
    ∧ get_date_with_offset new_york_fall_back 11 (-1) = "2026-11-01".toList
    ∧ get_date_with_offset new_york_fall_back 11 (-2) = "2026-10-31".toList
    ∧ streak_walk new_york_fall_back marked_nov_first 2 (-1) 0 = some 1
    ∧ streak_walk new_york_fall_back fresh_habit 2 (-1) 0 = some 0
    ∧ calculate_streak new_york_fall_back marked_nov_first 2 = some 2
    ∧ calculate_streak new_york_fall_back fresh_habit 2 = some 0 := by
  decide

/-! ## C5: the lookup in `days.txt` -/

theorem char_toNat_inj (a b : Char) (h : a.toNat = b.toNat) : a = b := by
  rw [← Char.ofNat_toNat a, ← Char.ofNat_toNat b, h]

theorem tolower_toNat_ne_zero (c : Char) (h : c ≠ '\x00') : (tolower c).toNat ≠ 0 := by
  unfold tolower
  split_ifs with hu
  · obtain ⟨h1, h2⟩ := hu
    generalize c.toNat = n at h1 h2
    interval_cases n <;> decide
  · intro h0
    exact h (char_toNat_inj c '\x00' h0)

theorem strcasecmp_eq_zero_iff (a : List Char) :
    ∀ b : List Char, '\x00' ∉ a → '\x00' ∉ b →
      (strcasecmp a b = 0 ↔ eq_ignoring_case a b) := by
  unfold eq_ignoring_case
  induction a with
  | nil =>
    intro b _ hb
    cases b with
    | nil => simp [strcasecmp]
    | cons c s =>
      have hc : c ≠ '\x00' := fun h => hb (by simp [h])
      have := tolower_toNat_ne_zero c hc
      simp only [strcasecmp, List.map_nil, List.map_cons]
      constructor
      · intro h; omega
      · intro h; exact absurd h (by simp)
  | cons x s ih =>
    intro b ha hb
    have hx : x ≠ '\x00' := fun h => ha (by simp [h])
    have hs : '\x00' ∉ s := fun h => ha (List.mem_cons_of_mem _ h)
    cases b with
    | nil =>
      have := tolower_toNat_ne_zero x hx
      simp only [strcasecmp, List.map_nil, List.map_cons]
      constructor
      · intro h; omega
      · intro h; exact absurd h (by simp)
    | cons c t =>
      have ht : '\x00' ∉ t := fun h => hb (List.mem_cons_of_mem _ h)
      simp only [strcasecmp, List.map_cons, List.cons.injEq]
      by_cases hxc : tolower x = tolower c
      · simp only [hxc, if_true, hx, if_false, true_and]
        exact ih t hs ht
      · simp only [hxc, if_false, false_and, iff_false]
        intro h
        apply hxc
        apply char_toNat_inj
        omega

theorem takeWhile_takeWhile (p q : Char → Bool) (l : List Char) :
    (l.takeWhile p).takeWhile q = l.takeWhile (fun c => p c && q c) := by
  induction l with
  | nil => rfl
  | cons c s ih =>
    by_cases hp : p c <;> by_cases hq : q c <;> simp [List.takeWhile_cons, hp, hq, ih]

theorem take_length_takeWhile (p : Char → Bool) (l : List Char) :
    l.take (l.takeWhile p).length = l.takeWhile p := by
  induction l with
  | nil => rfl
  | cons c s ih =>
    by_cases hp : p c <;> simp [List.takeWhile_cons, hp, ih]

/-- The line kept in the buffer after `line[strcspn(line, "\n")] = 0`. -/
theorem buffer_line (buf : List Char) :
    (cstr buf).take (strcspn_newline (cstr buf))
      = buf.takeWhile (fun c => c != '\x00' && c != '\n') := by
  unfold strcspn_newline
  rw [take_length_takeWhile]
  unfold cstr
  rw [takeWhile_takeWhile]

theorem takeWhile_line (l rest : List Char) (hnul : '\x00' ∉ l) (hnl : '\n' ∉ l) :
    (l ++ '\n' :: rest).takeWhile (fun c => c != '\x00' && c != '\n') = l := by
  induction l with
  | nil => simp [List.takeWhile_cons]
  | cons c s ih =>
    have h1 : c ≠ '\x00' := fun h => hnul (by simp [h])
    have h2 : c ≠ '\n' := fun h => hnl (by simp [h])
    have ih2 := ih (fun h => hnul (List.mem_cons_of_mem _ h))
      (fun h => hnl (List.mem_cons_of_mem _ h))
    simp [List.takeWhile_cons, h1, h2, ih2]

theorem takeWhile_whole (l : List Char) (hnul : '\x00' ∉ l) (hnl : '\n' ∉ l) :
    l.takeWhile (fun c => c != '\x00' && c != '\n') = l := by
  induction l with
  | nil => rfl
  | cons c s ih =>
    have h1 : c ≠ '\x00' := fun h => hnul (by simp [h])
    have h2 : c ≠ '\n' := fun h => hnl (by simp [h])
    have ih2 := ih (fun h => hnul (List.mem_cons_of_mem _ h))
      (fun h => hnl (List.mem_cons_of_mem _ h))
    simp [List.takeWhile_cons, h1, h2, ih2]

theorem fgets_read_line (l rest : List Char) (hnl : '\n' ∉ l) :
    ∀ n, l.length < n → fgets_read n (l ++ '\n' :: rest) = (l ++ ['\n'], rest) := by
  induction l with
  | nil =>
    intro n hn
    obtain ⟨m, rfl⟩ : ∃ m, n = m + 1 := ⟨n - 1, by simp at hn; omega⟩
    simp [fgets_read]
  | cons c s ih =>
    intro n hn
    obtain ⟨m, rfl⟩ : ∃ m, n = m + 1 := ⟨n - 1, by simp at hn; omega⟩
    have h2 : c ≠ '\n' := fun h => hnl (by simp [h])
    have ih2 := ih (fun h => hnl (List.mem_cons_of_mem _ h)) m (by simp at hn; omega)
    simp [fgets_read, h2, ih2]

theorem fgets_read_chunk (l rest : List Char) (hnl : '\n' ∉ l) :
    ∀ n, l.length ≤ n → (rest = [] ∨ l.length = n) → fgets_read n (l ++ rest) = (l, rest) := by
  induction l with
  | nil =>
    intro n _ h
    rcases h with h | h
    · subst h; cases n <;> simp [fgets_read]
    · simp at h; subst h; simp [fgets_read]
  | cons c s ih =>
    intro n hn h
    obtain ⟨m, rfl⟩ : ∃ m, n = m + 1 := ⟨n - 1, by simp at hn; omega⟩
    have h2 : c ≠ '\n' := fun h => hnl (by simp [h])
    have ih2 := ih (fun h => hnl (List.mem_cons_of_mem _ h)) m (by simp at hn; omega)
      (by rcases h with h | h
          · exact Or.inl h
          · right; simp at h; exact h)
    simp [fgets_read, h2, ih2]

theorem stream_cases (x : Char) (s : List Char) :
    x ∉ s ∨ ∃ l rest, s = l ++ x :: rest ∧ x ∉ l := by
  induction s with
  | nil => left; simp
  | cons c s ih =>
    by_cases hc : c = x
    · right; exact ⟨[], s, by simp [hc], by simp⟩
    · rcases ih with h | ⟨l, rest, h1, h2⟩
      · left
        intro hmem
        rcases List.mem_cons.mp hmem with h3 | h3
        · exact hc h3.symm
        · exact h h3
      · right
        refine ⟨c :: l, rest, by simp [h1], ?_⟩
        intro hmem
        rcases List.mem_cons.mp hmem with h3 | h3
        · exact hc h3.symm
        · exact h2 h3

theorem file_lines_whole (l : List Char) (hne : l ≠ []) (hnl : '\n' ∉ l) :
    file_lines l = [l] := by
  induction l with
  | nil => exact absurd rfl hne
  | cons c s ih =>
    have h2 : c ≠ '\n' := fun h => hnl (by simp [h])
    have hs : '\n' ∉ s := fun h => hnl (List.mem_cons_of_mem _ h)
    cases s with
    | nil => simp [file_lines, h2]
    | cons e t =>
      have := ih (by simp) hs
      simp [file_lines, h2] at this ⊢
      rw [this]

theorem file_lines_line (l rest : List Char) (hnl : '\n' ∉ l) :
    file_lines (l ++ '\n' :: rest) = l :: file_lines rest := by
  induction l with
  | nil => simp [file_lines]
  | cons c s ih =>
    have h2 : c ≠ '\n' := fun h => hnl (by simp [h])
    have := ih (fun h => hnl (List.mem_cons_of_mem _ h))
    rw [List.cons_append]
    simp only [file_lines, h2, if_false]
    rw [this]

theorem days_file_loop_nil (day : List Char) (fuel : Nat) :
    days_file_loop day fuel [] = false := by
  cases fuel <;> simp [days_file_loop, fgets]

theorem days_file_loop_succ (day : List Char) (fuel : Nat) (stream : List Char)
    (h : stream ≠ []) :
    days_file_loop day (fuel + 1) stream =
      if strcasecmp ((fgets_read 15 stream).1.takeWhile (fun c => c != '\x00' && c != '\n')) day = 0
      then true else days_file_loop day fuel (fgets_read 15 stream).2 := by
  simp only [days_file_loop, fgets, h, if_false, buffer_line]

theorem strcasecmp_nil_ne_zero (day : List Char) (hday : day ≠ []) (hdnul : '\x00' ∉ day) :
    strcasecmp [] day ≠ 0 := by
  intro h
  have := (strcasecmp_eq_zero_iff [] day (by simp) hdnul).mp h
  unfold eq_ignoring_case at this
  cases day with
  | nil => exact hday rfl
  | cons c s => simp at this

/-- With lines of at most 15 bytes and no NUL byte the loop finds `day` exactly
when a line equals it ignoring case. -/
theorem days_file_loop_iff (day : List Char) (hday : day ≠ []) (hdnul : '\x00' ∉ day) :
    ∀ (fuel : Nat) (stream : List Char), stream.length < fuel → '\x00' ∉ stream →
      (∀ l, l ∈ file_lines stream → l.length ≤ 15) →
      (days_file_loop day fuel stream = true ↔ ∃ l, l ∈ file_lines stream ∧ eq_ignoring_case l day) := by
  intro fuel
  induction fuel using Nat.strong_induction_on with
  | _ fuel ih =>
    intro stream hlen hnul hlines
    obtain ⟨fuel, rfl⟩ : ∃ f, fuel = f + 1 := ⟨fuel - 1, by omega⟩
    by_cases hs : stream = []
    · subst hs
      simp [days_file_loop, fgets, file_lines]
    rw [days_file_loop_succ day fuel stream hs]
    rcases stream_cases '\n' stream with hnl | ⟨l, rest, rfl, hnl⟩
    · have hfl := file_lines_whole stream hs hnl
      have h15 := hlines stream (by rw [hfl]; simp)
      have hread := fgets_read_chunk stream [] hnl 15 h15 (Or.inl rfl)
      rw [List.append_nil] at hread
      rw [hread, hfl]
      simp only [takeWhile_whole stream hnul hnl, days_file_loop_nil]
      have hiff := strcasecmp_eq_zero_iff stream day hnul hdnul
      by_cases hm : strcasecmp stream day = 0
      · simp [hm, hiff.mp hm]
      · have hne : ¬ eq_ignoring_case stream day := fun h => hm (hiff.mpr h)
        simp [hm, hne]
    · have hfl := file_lines_line l rest hnl
      have h15 := hlines l (by rw [hfl]; simp)
      have hnul_l : '\x00' ∉ l := fun h => hnul (List.mem_append_left _ h)
      have hnul_r : '\x00' ∉ rest :=
        fun h => hnul (List.mem_append_right _ (List.mem_cons_of_mem _ h))
      have hlines_r : ∀ l2, l2 ∈ file_lines rest → l2.length ≤ 15 :=
        fun l2 h => hlines l2 (by rw [hfl]; exact List.mem_cons_of_mem _ h)
      have hlen2 : l.length + 1 + rest.length < fuel + 1 := by
        simp at hlen; omega
      have hiff := strcasecmp_eq_zero_iff l day hnul_l hdnul
      rw [hfl]
      by_cases h14 : l.length < 15
      · rw [fgets_read_line l rest hnl 15 h14]
        simp only [takeWhile_line l [] hnul_l hnl]
        have ihr := ih fuel (by omega) rest (by omega) hnul_r hlines_r
        by_cases hm : strcasecmp l day = 0
        · simp [hm, hiff.mp hm]
        · have hne : ¬ eq_ignoring_case l day := fun h => hm (hiff.mpr h)
          simp [hm, hne, ihr]
      · rw [fgets_read_chunk l ('\n' :: rest) hnl 15 h15 (Or.inr (by omega))]
        simp only [takeWhile_whole l hnul_l hnl]
        obtain ⟨fuel, rfl⟩ : ∃ f, fuel = f + 1 := ⟨fuel - 1, by omega⟩
        have hr : fgets_read 15 ('\n' :: rest) = (['\n'], rest) :=
          fgets_read_line [] rest (by simp) 15 (by simp)
        have ht : ['\n'].takeWhile (fun c => c != '\x00' && c != '\n') = [] :=
          takeWhile_line [] [] (by simp) (by simp)
        rw [days_file_loop_succ day fuel ('\n' :: rest) (by simp), hr]
        simp only [ht, strcasecmp_nil_ne_zero day hday hdnul, if_false]
        have ihr := ih fuel (by omega) rest (by omega) hnul_r hlines_r
        by_cases hm : strcasecmp l day = 0
        · simp [hm, hiff.mp hm]
        · have hne : ¬ eq_ignoring_case l day := fun h => hm (hiff.mpr h)
          simp [hm, hne, ihr]

/-- C5, amended. When `days.txt` has no NUL byte and no line longer than 15
bytes, `is_day_in_days_file` returns true for a non-empty identifier `d`
exactly when some line of the file, without its newline, equals `d`
ignoring letter case; without `days.txt` it returns false for every `d`. -/
theorem is_day_in_days_file_iff_line (folder : Folder) (d : List Char)
    (hnul : ∀ content, folder.days_txt = some content → '\x00' ∉ content)
    (hlen : ∀ l, l ∈ days_txt_lines folder → l.length ≤ 15)
    (hd : d ≠ []) (hdnul : '\x00' ∉ d) :
    (is_day_in_days_file folder d = true ↔
      ∃ l, l ∈ days_txt_lines folder ∧ eq_ignoring_case l d)
    ∧ (∀ files e, is_day_in_days_file { files := files, days_txt := none } e = false) := by
  refine ⟨?_, fun _ _ => rfl⟩
  unfold is_day_in_days_file days_txt_lines at *
  cases hfile : folder.days_txt with
  | none => simp
  | some content =>
    rw [hfile] at hlen
    exact days_file_loop_iff d hd hdnul _ content (by omega) (hnul content hfile) hlen

/-- C5, amended, at work: `days.txt` holds `Sa` and `su`; the identifier `sa`
is found, as the line `Sa` equals it ignoring case. -/
theorem is_day_in_days_file_iff_line_witness :
    (is_day_in_days_file weekend_off ['s', 'a'] = true ↔
      ∃ l, l ∈ days_txt_lines weekend_off ∧ eq_ignoring_case l ['s', 'a'])
    ∧ is_day_in_days_file weekend_off ['s', 'a'] = true :=
  ⟨(is_day_in_days_file_iff_line weekend_off ['s', 'a']
      (by intro content h; cases h; decide) (by decide) (by decide) (by decide)).1,
    by decide⟩

/-- C5 as stated fails. The only line of `days.txt` is `xxxxxxxxxxxxxxxsu`
(17 bytes): `fgets` with the 16-byte buffer returns it in two pieces, the
second is `su`, and the lookup of `su` answers true although no line equals
`su` ignoring case. -/
theorem long_line_is_split :
    is_day_in_days_file long_line_habit ['s', 'u'] = true
    ∧ days_txt_lines long_line_habit = ["xxxxxxxxxxxxxxxsu".toList]
    ∧ ¬ ∃ l, l ∈ days_txt_lines long_line_habit ∧ eq_ignoring_case l ['s', 'u'] := by
  refine ⟨by decide, by decide, ?_⟩
  rintro ⟨l, hl, he⟩
  have h1 : days_txt_lines long_line_habit = ["xxxxxxxxxxxxxxxsu".toList] := by decide
  rw [h1] at hl
  simp only [List.mem_singleton] at hl
  subst hl
  revert he
  decide

/-! ## C6: the offset in seconds is an `int` product -/

theorem offset_instant_of_small (env : Env) (o : Int) (h1 : -24855 ≤ o) (h2 : o ≤ 24855) :
    offset_instant env o = env.now + o * 86400 := by
  unfold offset_instant wrap32; omega

/-- In a zone whose UTC offset is constant, the offsets `-24855 .. 24855`
resolve to the local day that many days from today. -/
theorem local_day_of_small (env : Env) (c : Int) (hz : ∀ t, env.utcoff t = c) (o : Int)
    (h1 : -24855 ≤ o) (h2 : o ≤ 24855) :
    local_day env (offset_instant env o) = local_day env env.now + o := by
  rw [offset_instant_of_small env o h1 h2]
  unfold local_day
  rw [hz, hz]
  omega

/-- C6 on the code. Clock 2026-10-30 12:00 UTC, offset `24856`: the `int`
product `24856 * 86400` wraps to `-2147408896`, the instant resolved lies 68
years in the past and the date written is 1958-10-13, a Monday, while the day
24856 days after today is 2094-11-18; offset `24855` still resolves to
2094-11-17. -/
theorem get_date_with_offset_overflows :
    (24856 * 86400 : Int) = 2147558400
    ∧ wrap32 (24856 * 86400) = -2147408896
    ∧ offset_instant noon_utc 24856 = noon_utc.now - 2147408896
    ∧ get_date_with_offset noon_utc 11 24856 = "1958-10-13".toList
    ∧ day_of_week noon_utc 24856 = ['m']
    ∧ civil_from_days (local_day noon_utc noon_utc.now + 24856) = (2094, 11, 18)
    ∧ get_date_with_offset noon_utc 11 24855 = "2094-11-17".toList := by
  decide

/-! ## C7: two clock readings of one local day -/

theorem get_date_of_same_day (env1 env2 : Env) (n : Nat) (a b : Int)
    (h : local_day env1 (offset_instant env1 a) = local_day env2 (offset_instant env2 b)) :
    get_date_with_offset env1 n a = get_date_with_offset env2 n b := by
  unfold get_date_with_offset localtime
  simp only [h]

theorem day_of_week_of_same_day (env1 env2 : Env) (a b : Int)
    (h : local_day env1 (offset_instant env1 a) = local_day env2 (offset_instant env2 b)) :
    day_of_week env1 a = day_of_week env2 b := by
  unfold day_of_week localtime
  simp only [h]

theorem streak_walk_same_day (env1 env2 : Env) (folder : Folder)
    (hsame : ∀ o : Int, -24855 ≤ o → o ≤ 24855 →
      local_day env1 (offset_instant env1 o) = local_day env2 (offset_instant env2 o)) :
    ∀ (fuel m : Nat) (s : Int), 1 ≤ m → m + fuel ≤ 24856 →
      streak_walk env1 folder fuel (-(m : Int)) s = streak_walk env2 folder fuel (-(m : Int)) s := by
  intro fuel
  induction fuel with
  | zero => intro m s _ _; rfl
  | succ fuel ih =>
    intro m s h1 h2
    have hd := hsame (-(m : Int)) (by omega) (by omega)
    have hnext : wrap32 (-(m : Int) - 1) = -((m + 1 : Nat) : Int) := by
      rw [wrap32_of_range _ (by omega) (by omega)]; push_cast; ring
    rw [streak_walk_succ, streak_walk_succ, hnext]
    unfold day_excluded day_marked
    rw [day_of_week_of_same_day env1 env2 _ _ hd, get_date_of_same_day env1 env2 11 _ _ hd,
      ih (m + 1) s (by omega) (by omega), ih (m + 1) (wrap32 (s + 1)) (by omega) (by omega)]

/-- Where every day has 24 hours. Two clock readings within the same local
day, in a zone
whose UTC offset is constant: every offset in `-24855 .. 24855` has the
same date key and weekday for both readings, `build_streak_string` writes the
same string, and `calculate_streak` gives the same result for every fuel
when the walk of the first reading stops within 24855 days. Both functions
only read the folder: they return nothing but the string and the count. -/
theorem same_local_day_same_results (env1 env2 : Env) (c : Int)
    (hz1 : ∀ t, env1.utcoff t = c) (hz2 : ∀ t, env2.utcoff t = c)
    (hday : local_day env1 env1.now = local_day env2 env2.now) (folder : Folder) :
    (∀ o : Int, -24855 ≤ o → o ≤ 24855 →
      get_date_with_offset env1 11 o = get_date_with_offset env2 11 o
        ∧ day_of_week env1 o = day_of_week env2 o)
    ∧ (∀ buf, build_streak_string env1 folder buf = build_streak_string env2 folder buf)
    ∧ (∀ k : Nat, 1 ≤ k → k ≤ 24855 →
        day_excluded env1 folder (-(k : Int)) = false →
        day_marked env1 folder (-(k : Int)) = false →
        (∀ i : Nat, 1 ≤ i → i < k → day_excluded env1 folder (-(i : Int)) = false →
          day_marked env1 folder (-(i : Int)) = true) →
        ∀ fuel, calculate_streak env1 folder fuel = calculate_streak env2 folder fuel) := by
  have hsame : ∀ o : Int, -24855 ≤ o → o ≤ 24855 →
      local_day env1 (offset_instant env1 o) = local_day env2 (offset_instant env2 o) := by
    intro o h1 h2
    rw [local_day_of_small env1 c hz1 o h1 h2, local_day_of_small env2 c hz2 o h1 h2, hday]
  have hkey : ∀ o : Int, -24855 ≤ o → o ≤ 24855 →
      get_date_with_offset env1 11 o = get_date_with_offset env2 11 o :=
    fun o h1 h2 => get_date_of_same_day env1 env2 11 o o (hsame o h1 h2)
  have hwd : ∀ o : Int, -24855 ≤ o → o ≤ 24855 → day_of_week env1 o = day_of_week env2 o :=
    fun o h1 h2 => day_of_week_of_same_day env1 env2 o o (hsame o h1 h2)
  have hglyph : ∀ o : Int, -24855 ≤ o → o ≤ 24855 →
      strip_glyph env1 folder o = strip_glyph env2 folder o := by
    intro o h1 h2
    unfold strip_glyph
    rw [hkey o h1 h2, hwd o h1 h2]
  refine ⟨fun o h1 h2 => ⟨hkey o h1 h2, hwd o h1 h2⟩, ?_, ?_⟩
  · intro buf
    unfold build_streak_string
    simp only [List.foldl]
    rw [hglyph (-6) (by decide) (by decide), hglyph (-5) (by decide) (by decide),
      hglyph (-4) (by decide) (by decide), hglyph (-3) (by decide) (by decide),
      hglyph (-2) (by decide) (by decide), hglyph (-1) (by decide) (by decide),
      hglyph 0 (by decide) (by decide)]
  · intro k hk1 hk2 hse hsm hrun fuel
    have hex : ∀ i : Nat, i ≤ k → day_excluded env2 folder (-(i : Int))
        = day_excluded env1 folder (-(i : Int)) := by
      intro i hi
      unfold day_excluded
      rw [hwd (-(i : Int)) (by omega) (by omega)]
    have hmk : ∀ i : Nat, i ≤ k → day_marked env2 folder (-(i : Int))
        = day_marked env1 folder (-(i : Int)) := by
      intro i hi
      unfold day_marked
      rw [hkey (-(i : Int)) (by omega) (by omega)]
    have hwalk : streak_walk env1 folder fuel (-1) 0 = streak_walk env2 folder fuel (-1) 0 := by
      by_cases hf : fuel ≤ k
      · exact streak_walk_same_day env1 env2 folder hsame fuel 1 0 (le_refl 1) (by omega)
      · have s1 := streak_walk_stops env1 folder k hk1 hse hsm hrun
        have s2 := streak_walk_stops env2 folder k hk1 (by rw [hex k (le_refl k)]; exact hse)
          (by rw [hmk k (le_refl k)]; exact hsm)
          (by
            intro i h1 h2 h3
            rw [hex i (by omega)] at h3
            rw [hmk i (by omega)]
            exact hrun i h1 h2 h3)
        rw [s1 fuel (by omega), s2 fuel (by omega), ← s1 k (le_refl k), ← s2 k (le_refl k)]
        exact streak_walk_same_day env1 env2 folder hsame k 1 0 (le_refl 1) (by omega)
    unfold calculate_streak
    rw [hwalk, hkey 0 (by decide) (by decide)]

/-- At 12:00 and 23:00 UTC of 2026-10-30, a habit marked on the last three
days: same strip, same streak. -/
theorem same_local_day_same_results_witness :
    build_streak_string noon_utc three_markers (List.replicate 8 'q')
      = build_streak_string late_utc three_markers (List.replicate 8 'q')
    ∧ calculate_streak noon_utc three_markers 5 = calculate_streak late_utc three_markers 5 :=
  have h := same_local_day_same_results noon_utc late_utc 0 (fun _ => rfl) (fun _ => rfl)
    (by decide) three_markers
  ⟨h.2.1 _, h.2.2 3 (by decide) (by decide) (by decide) (by decide)
    (by intro i h1 h2; interval_cases i <;> decide) 5⟩

/-- C7 on the code. New York, Sunday 2026-11-01, a local day of 25 hours:
the readings 00:30 EDT and 23:30 EST fall within it, with the same time-zone
rule and the same folder (one marker, on yesterday 2026-10-31). Offset `-1`
is 2026-10-31 for the first reading and 2026-11-01 for the second; the
strips differ and the streaks are 1 and 0, where both readings should give
the strip and the streak of the first. -/
theorem same_local_day_different_results :
    new_york_morning.utcoff = new_york_fall_back.utcoff
    ∧ local_day new_york_morning new_york_morning.now
        = local_day new_york_fall_back new_york_fall_back.now
    ∧ get_date_with_offset new_york_morning 11 0 = "2026-11-01".toList
    ∧ get_date_with_offset new_york_fall_back 11 0 = "2026-11-01".toList
    ∧ get_date_with_offset new_york_morning 11 (-1) = "2026-10-31".toList
    ∧ get_date_with_offset new_york_fall_back 11 (-1) = "2026-11-01".toList
    ∧ build_streak_string new_york_morning marked_oct_last (List.replicate 8 'q')
        = [' ', ' ', ' ', ' ', ' ', 'X', ' ', '\x00']
    ∧ build_streak_string new_york_fall_back marked_oct_last (List.replicate 8 'q')
        = [' ', ' ', ' ', ' ', 'X', ' ', ' ', '\x00']
    ∧ calculate_streak new_york_morning marked_oct_last 2 = some 1
    ∧ calculate_streak new_york_fall_back marked_oct_last 2 = some 0 := by
  refine ⟨rfl, ?_⟩
  decide

/-- The date key of an offset beyond `±24855` depends on the time of day even
in UTC: at 12:00 and at 23:00 of 2026-10-30 the offset `-24856`, whose
product with 86400 wraps to `2147408896`, resolves to two different dates. -/
theorem wrapped_offset_depends_on_time_of_day :
    local_day noon_utc noon_utc.now = local_day late_utc late_utc.now
    ∧ wrap32 (-24856 * 86400) = 2147408896
    ∧ get_date_with_offset noon_utc 11 (-24856) = "2094-11-16".toList
    ∧ get_date_with_offset late_utc 11 (-24856) = "2094-11-17".toList := by
  decide

/-! ## C8: when the walk stops -/

theorem access_fopen_w (folder : Folder) (key name : List Char) :
    access (fopen_w folder key) name = true ↔ (access folder name = true ∨ name = key) := by
  unfold fopen_w access
  by_cases h : key ∈ folder.files
  · simp only [h, if_true, decide_eq_true_eq]
    constructor
    · intro h1; exact Or.inl h1
    · rintro (h1 | h1)
      · exact h1
      · rw [h1]; exact h
  · simp only [h, if_false, decide_eq_true_eq, List.mem_cons]
    constructor
    · rintro (h1 | h1)
      · exact Or.inr h1
      · exact Or.inl h1
    · rintro (h1 | h1)
      · exact Or.inr h1
      · exact Or.inl h1

theorem days_txt_fopen_w (folder : Folder) (key : List Char) :
    (fopen_w folder key).days_txt = folder.days_txt := by
  unfold fopen_w
  split_ifs <;> rfl

theorem create_streak_files_succ (env : Env) (folder : Folder) (n : Nat) :
    create_streak_files env folder ((n + 1 : Nat) : Int) =
      fopen_w (create_streak_files env folder (n : Int))
        (get_date_with_offset env 11 (-(n : Int))) := by
  unfold create_streak_files
  rw [Int.toNat_ofNat, Int.toNat_ofNat, List.range_succ, List.foldl_append]
  rfl

/-- The folder after `create_streak_files`: the markers of the offsets
`0, -1, .., -(n-1)` are added, nothing is removed, `days.txt` is untouched. -/
theorem create_streak_files_spec (env : Env) (folder : Folder) (n : Nat) :
    (∀ name, access (create_streak_files env folder (n : Int)) name = true ↔
      (access folder name = true
        ∨ ∃ i : Nat, i < n ∧ name = get_date_with_offset env 11 (-(i : Int))))
    ∧ (create_streak_files env folder (n : Int)).days_txt = folder.days_txt := by
  induction n with
  | zero =>
    have h0 : create_streak_files env folder ((0 : Nat) : Int) = folder := by
      simp [create_streak_files]
    rw [h0]
    exact ⟨fun name => by simp, rfl⟩
  | succ n ih =>
    rw [create_streak_files_succ]
    refine ⟨fun name => ?_, by rw [days_txt_fopen_w]; exact ih.2⟩
    rw [access_fopen_w, ih.1 name]
    constructor
    · rintro ((h | ⟨i, hi, h⟩) | h)
      · exact Or.inl h
      · exact Or.inr ⟨i, by omega, h⟩
      · exact Or.inr ⟨n, by omega, h⟩
    · rintro (h | ⟨i, hi, h⟩)
      · exact Or.inl (Or.inl h)
      · by_cases hin : i = n
        · subst hin; exact Or.inr h
        · exact Or.inl (Or.inr ⟨i, by omega, h⟩)

/-- In a zone of constant UTC offset, with four-digit years, distinct offsets
of `-24855 .. 24855` have distinct date keys. -/
theorem date_key_inj_of_small (env : Env) (c : Int) (hz : ∀ t, env.utcoff t = c)
    (hclock : four_digit_years env) (a b : Int)
    (ha1 : -24855 ≤ a) (ha2 : a ≤ 24855) (hb1 : -24855 ≤ b) (hb2 : b ≤ 24855)
    (h : get_date_with_offset env 11 a = get_date_with_offset env 11 b) : a = b := by
  have hd := date_key_determines_day env hclock a b h
  rw [local_day_of_small env c hz a ha1 ha2, local_day_of_small env c hz b hb1 hb2] at hd
  omega

/-- Where every day has 24 hours. In a zone whose UTC offset is constant and
with four-digit
years, for `1 ≤ n ≤ 24855` and a habit without excluded weekday whose day at
offset `-n` has no marker: `create_streak_files(folder, n)` adds the markers
of the offsets `0, -1, .., -(n-1)`, removes none and leaves `days.txt` alone,
and `calculate_streak` on the result returns exactly `n` (any fuel `≥ n`). -/
theorem import_gives_length (env : Env) (c : Int) (hz : ∀ t, env.utcoff t = c)
    (hclock : four_digit_years env) (folder : Folder)
    (hnone : ∀ d, d ∈ days → is_day_in_days_file folder d = false)
    (n : Nat) (h1 : 1 ≤ n) (h2 : n ≤ 24855)
    (hgap : day_marked env folder (-(n : Int)) = false) :
    (∀ name, access (create_streak_files env folder (n : Int)) name = true ↔
      (access folder name = true
        ∨ ∃ i : Nat, i < n ∧ name = get_date_with_offset env 11 (-(i : Int))))
    ∧ (create_streak_files env folder (n : Int)).days_txt = folder.days_txt
    ∧ ∀ fuel, n ≤ fuel →
        calculate_streak env (create_streak_files env folder (n : Int)) fuel = some (n : Int) := by
  obtain ⟨hacc, hdays⟩ := create_streak_files_spec env folder n
  refine ⟨hacc, hdays, ?_⟩
  intro fuel hfuel
  have hnone2 : ∀ d, d ∈ days →
      is_day_in_days_file (create_streak_files env folder (n : Int)) d = false := by
    intro d hd
    rw [is_day_in_days_file_congr _ folder hdays]
    exact hnone d hd
  have hex : ∀ o, day_excluded env (create_streak_files env folder (n : Int)) o = false :=
    fun o => hnone2 _ (day_of_week_mem env o)
  have hmk : ∀ i : Nat, i < n →
      day_marked env (create_streak_files env folder (n : Int)) (-(i : Int)) = true := by
    intro i hi
    unfold day_marked
    exact (hacc _).mpr (Or.inr ⟨i, hi, rfl⟩)
  have hstop : day_marked env (create_streak_files env folder (n : Int)) (-(n : Int)) = false := by
    cases h : day_marked env (create_streak_files env folder (n : Int)) (-(n : Int)) with
    | false => rfl
    | true =>
      unfold day_marked at h hgap
      rcases (hacc _).mp h with h3 | ⟨i, hi, h3⟩
      · rw [hgap] at h3; exact Bool.noConfusion h3
      · have := date_key_inj_of_small env c hz hclock _ _ (by omega) (by omega) (by omega)
          (by omega) h3
        omega
  have hw := streak_walk_stops env _ n h1 (hex _) hstop
    (fun i hi1 hi2 _ => hmk i hi2) fuel hfuel
  have h0 := hmk 0 (by omega)
  unfold day_marked at h0
  simp only [Nat.cast_zero, neg_zero] at h0
  unfold calculate_streak
  rw [hw, h0]
  simp only [if_true]
  unfold nonexcluded_count
  rw [nonexcluded_from_of_none env _ hnone2, wrap32_of_range _ (by omega) (by omega)]
  congr 1
  omega

/-- At 12:00 UTC: importing 3 days into a fresh habit at 2026-10-30
12:00 UTC gives a streak of 3. -/
theorem import_gives_length_witness :
    calculate_streak noon_utc (create_streak_files noon_utc fresh_habit 3) 3 = some 3 :=
  (import_gives_length noon_utc 0 (fun _ => rfl) four_digit_years_noon_utc fresh_habit
    (by decide) 3 (by decide) (by decide) (by decide)).2.2 3 (le_refl 3)

/-- C9 on the code. New York, 23:30 on the 25-hour Sunday 2026-11-01, a
fresh habit, `n = 1`: the day at offset `-1` has no marker beforehand,
`create_streak_files` creates the marker of 2026-11-01 only, but offset `-1`
resolves to 2026-11-01 as well and `calculate_streak` returns 2, where the
streak of one imported day should be 1. -/
theorem import_of_one_day_counts_two :
    (∀ d, d ∈ days → is_day_in_days_file fresh_habit d = false)
    ∧ day_marked new_york_fall_back fresh_habit (-1) = false
    ∧ (create_streak_files new_york_fall_back fresh_habit 1).files = ["2026-11-01".toList]
    ∧ get_date_with_offset new_york_fall_back 11 (-1) = "2026-11-01".toList
    ∧ calculate_streak new_york_fall_back
        (create_streak_files new_york_fall_back fresh_habit 1) 2 = some 2 := by
  decide

/-! ## C10: writing, then reading, the exclusion list -/

theorem strtok_nil (delim : Char) : strtok [] delim = none := by
  simp [strtok]

theorem strtok_delim (delim : Char) (s : List Char) :
    strtok (delim :: s) delim = strtok s delim := by
  simp [strtok, List.dropWhile_cons]

theorem takeWhile_ne_of_not_mem (x : Char) (t rest : List Char) (h : x ∉ t) :
    (t ++ x :: rest).takeWhile (fun c => c != x) = t
      ∧ (t ++ x :: rest).dropWhile (fun c => c != x) = x :: rest := by
  induction t with
  | nil => simp [List.takeWhile_cons, List.dropWhile_cons]
  | cons c s ih =>
    have h1 : c ≠ x := fun e => h (by simp [e])
    have ih2 := ih (fun e => h (List.mem_cons_of_mem _ e))
    simp [List.takeWhile_cons, List.dropWhile_cons, h1, ih2]

theorem takeWhile_ne_of_not_mem_whole (x : Char) (t : List Char) (h : x ∉ t) :
    t.takeWhile (fun c => c != x) = t ∧ t.dropWhile (fun c => c != x) = [] := by
  induction t with
  | nil => simp
  | cons c s ih =>
    have h1 : c ≠ x := fun e => h (by simp [e])
    have ih2 := ih (fun e => h (List.mem_cons_of_mem _ e))
    simp [List.takeWhile_cons, List.dropWhile_cons, h1, ih2]

theorem strtok_token (delim c : Char) (t rest : List Char) (hc : c ≠ delim) (ht : delim ∉ t) :
    strtok (c :: t ++ delim :: rest) delim = some (c :: t, rest) := by
  have h := takeWhile_ne_of_not_mem delim (c :: t) rest
    (by intro hm; rcases List.mem_cons.mp hm with e | e
        · exact hc e.symm
        · exact ht e)
  unfold strtok
  have hd : (c :: t ++ delim :: rest).dropWhile (fun a => a == delim) = c :: t ++ delim :: rest := by
    simp [List.dropWhile_cons, hc]
  simp only [hd, h.1, h.2]
  simp

theorem strtok_last (delim c : Char) (t : List Char) (hc : c ≠ delim) (ht : delim ∉ t) :
    strtok (c :: t) delim = some (c :: t, []) := by
  have h := takeWhile_ne_of_not_mem_whole delim (c :: t)
    (by intro hm; rcases List.mem_cons.mp hm with e | e
        · exact hc e.symm
        · exact ht e)
  unfold strtok
  have hd : (c :: t).dropWhile (fun a => a == delim) = c :: t := by
    simp [List.dropWhile_cons, hc]
  simp only [hd, h.1, h.2]
  simp

theorem write_tokens_nil (fuel : Nat) : write_tokens fuel [] = [] := by
  cases fuel <;> simp [write_tokens, strtok_nil]

theorem comma_tokens_nil : comma_tokens [] = [] := by
  simp [comma_tokens]

theorem comma_tokens_comma (s : List Char) : comma_tokens (',' :: s) = comma_tokens s := by
  simp [comma_tokens, List.splitOn]

theorem comma_tokens_token (c : Char) (t rest : List Char) (hc : c ≠ ',') (ht : ',' ∉ t) :
    comma_tokens (c :: t ++ ',' :: rest) = (c :: t) :: comma_tokens rest := by
  unfold comma_tokens List.splitOn
  rw [List.splitOnP_first (fun a => a == ',') (c :: t)
    (by intro a ha; rcases List.mem_cons.mp ha with e | e
        · simp [e, hc]
        · simp; intro e2; exact ht (e2 ▸ e)) ',' (by simp) rest]
  simp

theorem comma_tokens_last (c : Char) (t : List Char) (hc : c ≠ ',') (ht : ',' ∉ t) :
    comma_tokens (c :: t) = [c :: t] := by
  unfold comma_tokens List.splitOn
  rw [List.splitOnP_eq_single (fun a => a == ',') (c :: t)
    (by intro a ha; rcases List.mem_cons.mp ha with e | e
        · simp [e, hc]
        · simp; intro e2; exact ht (e2 ▸ e))]
  simp

/-- The loop writes the non-empty comma-separated tokens, one per line. -/
theorem write_tokens_eq : ∀ (n : Nat) (s : List Char) (fuel : Nat),
    s.length ≤ n → s.length < fuel → write_tokens fuel s = lines_text (comma_tokens s) := by
  intro n
  induction n with
  | zero =>
    intro s fuel h1 _
    have hs : s = [] := List.length_eq_zero.mp (by omega)
    subst hs
    rw [write_tokens_nil, comma_tokens_nil]
    rfl
  | succ n ih =>
    intro s fuel h1 h2
    cases s with
    | nil => rw [write_tokens_nil, comma_tokens_nil]; rfl
    | cons c s =>
      obtain ⟨f, rfl⟩ : ∃ f, fuel = f + 1 := ⟨fuel - 1, by omega⟩
      simp only [List.length_cons] at h1 h2
      by_cases hc : c = ','
      · subst hc
        have hrec := ih s (f + 1) (by omega) (by omega)
        rw [comma_tokens_comma, ← hrec]
        simp only [write_tokens, strtok_delim]
      · rcases stream_cases ',' s with hnot | ⟨t, rest, rfl, hnot⟩
        · rw [comma_tokens_last c s hc hnot]
          simp only [write_tokens, strtok_last ',' c s hc hnot, write_tokens_nil, lines_text]
        · have hlen : rest.length < f := by simp at h2; omega
          rw [← List.cons_append, comma_tokens_token c t rest hc hnot]
          simp only [write_tokens, strtok_token ',' c t rest hc hnot, lines_text]
          rw [ih rest f (by simp at h1; omega) hlen]

theorem file_lines_lines_text (ls : List (List Char)) (h : ∀ l, l ∈ ls → '\n' ∉ l) :
    file_lines (lines_text ls) = ls := by
  induction ls with
  | nil => rfl
  | cons l ls ih =>
    simp only [lines_text]
    rw [file_lines_line l _ (h l (by simp)), ih (fun l2 hl2 => h l2 (List.mem_cons_of_mem _ hl2))]

theorem not_mem_lines_text (x : Char) (hx : x ≠ '\n') (ls : List (List Char))
    (h : ∀ l, l ∈ ls → x ∉ l) : x ∉ lines_text ls := by
  induction ls with
  | nil => simp [lines_text]
  | cons l ls ih =>
    simp only [lines_text, List.mem_append, List.mem_cons, not_or]
    exact ⟨h l (by simp), hx, ih (fun l2 hl2 => h l2 (List.mem_cons_of_mem _ hl2))⟩

theorem mem_of_mem_splitOnP (p : Char → Bool) (x : Char) :
    ∀ (s t : List Char), t ∈ s.splitOnP p → x ∈ t → x ∈ s := by
  intro s
  induction s with
  | nil =>
    intro t ht hx
    rw [List.splitOnP_nil, List.mem_singleton] at ht
    subst ht
    exact hx
  | cons a s ih =>
    intro t ht hx
    rw [List.splitOnP_cons] at ht
    by_cases hp : p a = true
    · rw [if_pos hp] at ht
      rcases List.mem_cons.mp ht with e | e
      · subst e; exact absurd hx (by simp)
      · exact List.mem_cons_of_mem _ (ih t e hx)
    · rw [if_neg hp] at ht
      cases hsp : List.splitOnP p s with
      | nil => rw [hsp] at ht; simp at ht
      | cons hd tl =>
        rw [hsp, List.modifyHead_cons] at ht
        rcases List.mem_cons.mp ht with e | e
        · subst e
          rcases List.mem_cons.mp hx with e2 | e2
          · rw [e2]; exact List.mem_cons_self _ _
          · exact List.mem_cons_of_mem _ (ih hd (by rw [hsp]; simp) e2)
        · exact List.mem_cons_of_mem _ (ih t (by rw [hsp]; exact List.mem_cons_of_mem _ e) hx)

theorem mem_of_mem_comma_tokens (s t : List Char) (ht : t ∈ comma_tokens s) (x : Char)
    (hx : x ∈ t) : x ∈ s := by
  unfold comma_tokens List.splitOn at ht
  exact mem_of_mem_splitOnP _ x s t (List.mem_filter.mp ht).1 hx

theorem mem_comma_tokens (s t : List Char) :
    t ∈ comma_tokens s ↔ (t ∈ s.splitOn ',' ∧ t ≠ []) := by
  unfold comma_tokens
  rw [List.mem_filter]
  cases t <;> simp

/-- C10. Let `weekday_values` be a C string (no NUL byte) whose
comma-separated tokens contain no newline and have at most 15 characters.
After `handle_days_file(folder, weekday_values)` the lookup
`is_day_in_days_file(folder, d)` of a non-empty `d` returns true exactly when
`d` equals one of the non-empty comma-separated tokens ignoring case; after
`handle_days_file` with NULL or with the empty string the lookup returns
false for every `d`. -/
theorem days_file_round_trip (folder : Folder) (weekday_values d : List Char)
    (hnul : '\x00' ∉ weekday_values)
    (htok : ∀ t, t ∈ weekday_values.splitOn ',' → '\n' ∉ t ∧ t.length ≤ 15)
    (hd : d ≠ []) (hdnul : '\x00' ∉ d) :
    (is_day_in_days_file (handle_days_file folder (some weekday_values)) d = true ↔
      ∃ t, t ∈ weekday_values.splitOn ',' ∧ t ≠ [] ∧ eq_ignoring_case t d)
    ∧ (∀ e, is_day_in_days_file (handle_days_file folder none) e = false)
    ∧ (∀ e, is_day_in_days_file (handle_days_file folder (some [])) e = false) := by
  refine ⟨?_, fun _ => rfl, fun _ => rfl⟩
  have hrhs : (∃ t, t ∈ weekday_values.splitOn ',' ∧ t ≠ [] ∧ eq_ignoring_case t d)
      ↔ ∃ t, t ∈ comma_tokens weekday_values ∧ eq_ignoring_case t d := by
    constructor
    · rintro ⟨t, h1, h2, h3⟩
      exact ⟨t, (mem_comma_tokens _ t).mpr ⟨h1, h2⟩, h3⟩
    · rintro ⟨t, h1, h3⟩
      obtain ⟨h4, h5⟩ := (mem_comma_tokens _ t).mp h1
      exact ⟨t, h4, h5, h3⟩
  rw [hrhs]
  have htok2 : ∀ t, t ∈ comma_tokens weekday_values → '\n' ∉ t ∧ t.length ≤ 15 :=
    fun t ht => htok t ((mem_comma_tokens _ t).mp ht).1
  by_cases hempty : weekday_values.length = 0
  · have hv : weekday_values = [] := List.length_eq_zero.mp hempty
    subst hv
    simp [handle_days_file, is_day_in_days_file, comma_tokens_nil]
  · have hfile : (handle_days_file folder (some weekday_values)).days_txt
        = some (lines_text (comma_tokens weekday_values)) := by
      simp only [handle_days_file, hempty, if_false]
      rw [write_tokens_eq weekday_values.length weekday_values _ (le_refl _) (by omega)]
    have hlines : file_lines (lines_text (comma_tokens weekday_values))
        = comma_tokens weekday_values :=
      file_lines_lines_text _ (fun t ht => (htok2 t ht).1)
    have hnul2 : '\x00' ∉ lines_text (comma_tokens weekday_values) :=
      not_mem_lines_text '\x00' (by decide) _
        (fun t ht hx => hnul (mem_of_mem_comma_tokens _ t ht _ hx))
    unfold is_day_in_days_file
    rw [hfile]
    simp only
    rw [days_file_loop_iff d hd hdnul _ _ (by omega) hnul2
      (by rw [hlines]; exact fun t ht => (htok2 t ht).2), hlines]

/-- C10 at work: after `days` with the argument `f,,Sa,su` the lookup of `sa`
is true and `Sa` is among the tokens; the lookup of `m` is false. -/
theorem days_file_round_trip_witness :
    (is_day_in_days_file (handle_days_file fresh_habit (some weekend_values)) ['s', 'a'] = true ↔
      ∃ t, t ∈ weekend_values.splitOn ',' ∧ t ≠ [] ∧ eq_ignoring_case t ['s', 'a'])
    ∧ is_day_in_days_file (handle_days_file fresh_habit (some weekend_values)) ['s', 'a'] = true
    ∧ is_day_in_days_file (handle_days_file fresh_habit (some weekend_values)) ['m'] = false :=
  ⟨(days_file_round_trip fresh_habit weekend_values ['s', 'a'] (by decide) (by decide)
      (by decide) (by decide)).1, by decide, by decide⟩

/-! ## C11: the weekday header -/

theorem header_loop_eq (w : Int) (buf : List Char) (hbuf : 8 ≤ buf.length) :
    header_loop w buf =
      [header_day (Int.tmod (w + 0 + 1) 7), header_day (Int.tmod (w + 1 + 1) 7),
        header_day (Int.tmod (w + 2 + 1) 7), header_day (Int.tmod (w + 3 + 1) 7),
        header_day (Int.tmod (w + 4 + 1) 7), header_day (Int.tmod (w + 5 + 1) 7),
        header_day (Int.tmod (w + 6 + 1) 7)] ++ buf.drop 7 := by
  rcases buf with _ | ⟨b0, _ | ⟨b1, _ | ⟨b2, _ | ⟨b3, _ | ⟨b4, _ | ⟨b5, _ | ⟨b6, _ | ⟨b7, rest⟩⟩⟩⟩⟩⟩⟩⟩
    <;> simp at hbuf
  simp [header_loop, List.foldl, List.set]

/-- The byte stored by the loop at index `k`: for a weekday index `w` in
`0 .. 6` the C expression `(w + k + 1) % 7` is `(w + k - 6) mod 7`. -/
theorem header_index (w : Int) (h0 : 0 ≤ w) (h6 : w ≤ 6) (k : Int) (hk0 : 0 ≤ k) (hk6 : k ≤ 6) :
    Int.tmod (w + k + 1) 7 = (w + k - 6) % 7 := by
  interval_cases w <;> interval_cases k <;> decide

/-- The header for a given weekday index of today. -/
theorem weekday_header_spec (w : Int) (h0 : 0 ≤ w) (h6 : w ≤ 6) (buf : List Char)
    (hbuf : 8 ≤ buf.length) :
    (∀ k : Nat, k < 7 →
      (weekday_header w buf)[k]? = some (header_day (((w : Int) + (k : Int) - 6) % 7)))
    ∧ (weekday_header w buf)[6]? = some (header_day w)
    ∧ (weekday_header w buf)[7]? = some '\x00'
    ∧ (header_loop w buf)[6]? = some (header_day w)
    ∧ (header_loop w buf).set 6 (header_day w) = header_loop w buf
    ∧ (weekday_header w buf).drop 8 = buf.drop 8 := by
  have hl := header_loop_eq w buf hbuf
  have e0 := header_index w h0 h6 0 (by decide) (by decide)
  have e1 := header_index w h0 h6 1 (by decide) (by decide)
  have e2 := header_index w h0 h6 2 (by decide) (by decide)
  have e3 := header_index w h0 h6 3 (by decide) (by decide)
  have e4 := header_index w h0 h6 4 (by decide) (by decide)
  have e5 := header_index w h0 h6 5 (by decide) (by decide)
  have e6 := header_index w h0 h6 6 (by decide) (by decide)
  have e66 : (w + 6 - 6) % 7 = w := by omega
  rw [e0, e1, e2, e3, e4, e5, e6, e66] at hl
  rcases buf with _ | ⟨b0, _ | ⟨b1, _ | ⟨b2, _ | ⟨b3, _ | ⟨b4, _ | ⟨b5, _ | ⟨b6, _ | ⟨b7, rest⟩⟩⟩⟩⟩⟩⟩⟩
    <;> simp at hbuf
  unfold weekday_header
  rw [hl]
  refine ⟨?_, by simp, by simp, by simp, by simp, by simp⟩
  intro k hk
  have e7 : w % 7 = w := by omega
  interval_cases k <;> simp [e7]

theorem tm_wday_range (env : Env) (t : Int) :
    0 ≤ (localtime env t).tm_wday ∧ (localtime env t).tm_wday ≤ 6 := by
  unfold localtime
  simp only
  omega

/-- The header for every weekday index, and its strip where every day has
24 hours. For every weekday index `w` of today in `0 .. 6` and every
column `k` in `0 .. 6` the header character `k` is the letter of `SMTWTFS`
at index `(w + k - 6) mod 7`; the last column is today's letter, the byte
after it the NUL, and the assignment `streak[6] = days[today]` stores what
the loop had stored there. In a zone whose UTC offset is constant that
letter is the initial of the weekday that `build_streak_string` resolves for
its column `k`, the day at offset `k - 6`. -/
theorem main_header_aligned (env : Env) (c : Int) (hz : ∀ t, env.utcoff t = c)
    (streak : List Char) (hbuf : 8 ≤ streak.length) :
    (∀ w : Int, 0 ≤ w → w ≤ 6 → ∀ buf : List Char, 8 ≤ buf.length →
      (∀ k : Nat, k < 7 →
        (weekday_header w buf)[k]? = some (header_day (((w : Int) + (k : Int) - 6) % 7)))
      ∧ (weekday_header w buf)[6]? = some (header_day w)
      ∧ (weekday_header w buf)[7]? = some '\x00'
      ∧ (header_loop w buf)[6]? = some (header_day w)
      ∧ (header_loop w buf).set 6 (header_day w) = header_loop w buf
      ∧ (weekday_header w buf).drop 8 = buf.drop 8)
    ∧ (∀ k : Nat, k < 7 →
        (main_header env streak)[k]?
            = some (header_day (localtime env (offset_instant env ((k : Int) - 6))).tm_wday)
        ∧ day_of_week env ((k : Int) - 6)
            = days.getD (localtime env (offset_instant env ((k : Int) - 6))).tm_wday.toNat []) := by
  refine ⟨fun w h0 h6 buf hb => weekday_header_spec w h0 h6 buf hb, ?_⟩
  intro k hk
  refine ⟨?_, rfl⟩
  have hr := tm_wday_range env env.now
  have hs := (weekday_header_spec (localtime env env.now).tm_wday hr.1 hr.2 streak hbuf).1 k hk
  unfold main_header
  rw [hs]
  have hd := local_day_of_small env c hz ((k : Int) - 6) (by omega) (by omega)
  have e1 : (localtime env env.now).tm_wday = (local_day env env.now + 4) % 7 := rfl
  have e2 : (localtime env (offset_instant env ((k : Int) - 6))).tm_wday
      = (local_day env (offset_instant env ((k : Int) - 6)) + 4) % 7 := rfl
  rw [e1, e2, hd]
  congr 2
  omega

/-- On Friday 2026-10-30 at 12:00 UTC, the header is
`SSMTWTF` and its column 4, `W`, stands above the Wednesday of offset `-2`. -/
theorem main_header_aligned_witness :
    main_header noon_utc eight_bytes = ['S', 'S', 'M', 'T', 'W', 'T', 'F', '\x00']
    ∧ (main_header noon_utc eight_bytes)[4]?
        = some (header_day (localtime noon_utc (offset_instant noon_utc ((4 : Nat) - 6))).tm_wday)
    ∧ day_of_week noon_utc (-2) = ['w'] :=
  ⟨by decide,
    ((main_header_aligned noon_utc 0 (fun _ => rfl) eight_bytes (by decide)).2 4
      (by decide)).1,
    by decide⟩

/-- C11 on the code. New York, 23:30 on the 25-hour Sunday 2026-11-01:
today's index is 0 and the header is `MTWTFSS`, as the formula
`(w + k - 6) mod 7` says; but `build_streak_string` resolves the offsets
`-6 .. 0` to Tuesday .. Saturday, Sunday, Sunday, so that column 4 shows
Saturday 2026-10-31 (its marker `X`) under the letter `F`, and column 0 shows
a Tuesday under `M`. -/
theorem header_shifted_on_long_day :
    (localtime new_york_fall_back new_york_fall_back.now).tm_wday = 0
    ∧ main_header new_york_fall_back eight_bytes = ['M', 'T', 'W', 'T', 'F', 'S', 'S', '\x00']
    ∧ header_day ((0 + 4 - 6) % 7) = 'F'
    ∧ (localtime new_york_fall_back (offset_instant new_york_fall_back (-2))).tm_wday = 6
    ∧ day_of_week new_york_fall_back (-2) = ['s', 'a']
    ∧ get_date_with_offset new_york_fall_back 11 (-2) = "2026-10-31".toList
    ∧ header_day 6 = 'S'
    ∧ build_streak_string new_york_fall_back marked_oct_last eight_bytes
        = [' ', ' ', ' ', ' ', 'X', ' ', ' ', '\x00']
    ∧ day_of_week new_york_fall_back (-6) = ['t', 'u']
    ∧ (main_header new_york_fall_back eight_bytes)[0]? = some 'M' := by
  decide

end Streaks
